import Mathlib

/-!
# Grid-function indexing and per-point kernels of `SF_collapse/BSSN`

A shallow embedding of the two generated kernels

* `SF_collapse/BSSN/ds_dirn.h`: the proper-distance factors of a spherical-like chart,
* `SF_collapse/BSSN/ScalarWave_ExactSolution.h`: the write of the exact solution into
  the flattened grid-function buffer `in_gfs`,

together with the flattened offset `IDX4` they rely on.

The blocks are C fragments whose free variables (`dxx0`, `xx0`, `in_gfs`, `i0`, ...) are
declared by the including code. The scalar type of the values is therefore a type
parameter `α` of the embedding, and the library function `sin` is a parameter of the
`ds_dirn` block. Statements about numerical values instantiate `α` with `Double`, a model of the
IEEE-754 binary64 format with the C product (round to nearest, ties to even); `sin` stays a
parameter there too, constrained only by hypotheses on the value it returns at the argument in
question.
-/

namespace SFCollapse

/-! ## Definitions -/

/-- Result variables `ds_dirn0`, `ds_dirn1`, `ds_dirn2` assigned by the block of `ds_dirn.h`. -/
structure DsDirn (α : Type) where
  ds_dirn0 : α
  ds_dirn1 : α
  ds_dirn2 : α

/-- The block of `ds_dirn.h`: three assignments, executed in order on the result variables.
C parses `dxx2*xx0*sin(xx1)` as `(dxx2*xx0)*sin(xx1)`. -/
def ds_dirn {α : Type} [Mul α] (sin : α → α) (dxx0 dxx1 dxx2 xx0 xx1 : α)
    (s : DsDirn α) : DsDirn α :=
  let s1 := { s with ds_dirn0 := dxx0 }
  let s2 := { s1 with ds_dirn1 := dxx1 * xx0 }
  { s2 with ds_dirn2 := dxx2 * xx0 * sin xx1 }

/-- Reference formula of the specification for the coordinate factors:
`ds0 = dxx0`, `ds1 = dxx1 · xx0`, `ds2 = dxx2 · xx0 · sin(xx1)`, returned as `(ds0, ds1, ds2)`. -/
def CoordinateFactorEvaluator_compute {α : Type} [Mul α] (sin : α → α)
    (dxx0 dxx1 dxx2 xx0 xx1 : α) : α × α × α :=
  (dxx0, dxx1 * xx0, dxx2 * xx0 * sin xx1)

/-- Modelled from the spec: the `IDX4` macro is used by `ScalarWave_ExactSolution.h` but is not
defined in the source files at hand. The specification describes an `IDX4`-style flattening in
which `i0` is the fastest-varying axis, `i1` and `i2` have the respective larger strides, and each
field owns a contiguous region of `N0 × N1 × N2` cells; `N0`, `N1`, `N2` are the padded extents. -/
def IDX4 (N0 N1 N2 : Int) (g i0 i1 i2 : Int) : Int :=
  i0 + N0 * (i1 + N1 * (i2 + N2 * g))

/-- An index tuple lies within the padded grid extents. -/
def validIndex (N0 N1 N2 : Int) (i0 i1 i2 : Int) : Prop :=
  (0 ≤ i0 ∧ i0 < N0) ∧ (0 ≤ i1 ∧ i1 < N1) ∧ (0 ≤ i2 ∧ i2 < N2)

instance (N0 N1 N2 i0 i1 i2 : Int) : Decidable (validIndex N0 N1 N2 i0 i1 i2) := by
  unfold validIndex; infer_instance

/-- A field id is one of the `NUM_FIELDS` densely numbered grid functions. -/
def validField (NUM_FIELDS : Int) (g : Int) : Prop :=
  0 ≤ g ∧ g < NUM_FIELDS

instance (NUM_FIELDS g : Int) : Decidable (validField NUM_FIELDS g) := by
  unfold validField; infer_instance

/-- The C assignment `in_gfs[off] = v`. An offset outside the buffer is undefined behaviour in C
and yields `none` here. -/
def writeCell {α : Type} (in_gfs : Array α) (off : Int) (v : α) : Option (Array α) :=
  if 0 ≤ off ∧ off.toNat < in_gfs.size then some (in_gfs.setD off.toNat v) else none

/-- The C read `in_gfs[off]`; `none` outside the buffer. -/
def readCell {α : Type} (in_gfs : Array α) (off : Int) : Option α :=
  if 0 ≤ off then in_gfs[off.toNat]? else none

/-- The block of `ScalarWave_ExactSolution.h`: the store to the `UUGF` cell followed by the store
to the `VVGF` cell of the point `(i0, i1, i2)`. The extents and the two field ids come from the
including code and are parameters. -/
def ScalarWave_ExactSolution {α : Type} (N0 N1 N2 UUGF VVGF : Int) (in_gfs : Array α)
    (i0 i1 i2 : Int) (uu_in vv_in : α) : Option (Array α) :=
  (writeCell in_gfs (IDX4 N0 N1 N2 UUGF i0 i1 i2) uu_in).bind fun in_gfs1 =>
    writeCell in_gfs1 (IDX4 N0 N1 N2 VVGF i0 i1 i2) vv_in

/-- One grid point handed to the exact-solution block: its index tuple and the two values
`uu_in`, `vv_in` supplied for it. -/
structure Point (α : Type) where
  i0 : Int
  i1 : Int
  i2 : Int
  uu_in : α
  vv_in : α

/-- Modelled from the spec: the driver that iterates the grid points is not among the source
files. One pass runs the exact-solution block for the points of a list, one after the other, each
on the buffer left by the previous one. -/
def runPoints {α : Type} (N0 N1 N2 UUGF VVGF : Int) :
    Array α → List (Point α) → Option (Array α)
  | in_gfs, [] => some in_gfs
  | in_gfs, p :: ps =>
    (ScalarWave_ExactSolution N0 N1 N2 UUGF VVGF in_gfs p.i0 p.i1 p.i2 p.uu_in p.vv_in).bind
      fun in_gfs1 => runPoints N0 N1 N2 UUGF VVGF in_gfs1 ps

/-! ### Doubles -/

/-- A value of the IEEE-754 binary64 format, the `double` of C and the scalar type `REAL` of the
generated kernels: a NaN, a signed infinity, or the finite number `(-1)^neg · m · 2^e`. The
doubles are the canonical finite values: the normal ones with `2^52 ≤ m < 2^53` and
`-1074 ≤ e ≤ 971`, the subnormal ones and the two zeros with `m < 2^52` and `e = -1074`. The
payload and the sign of a NaN are not modelled. -/
inductive Double where
  | nan : Double
  | inf (neg : Bool) : Double
  | fin (neg : Bool) (m : Nat) (e : Int) : Double
deriving DecidableEq

namespace Double

/-- Number of binary digits of `m`, computed with fuel `fuel`. -/
def bitsAux : Nat → Nat → Nat
  | 0, _ => 0
  | fuel + 1, m => if m = 0 then 0 else bitsAux fuel (m / 2) + 1

/-- Number of binary digits of `m` (`0` for `m = 0`). -/
def bitLength (m : Nat) : Nat := bitsAux m m

/-- The quotient `x / d` rounded to the nearest natural number, a tie going to the even one. -/
def roundDiv (x d : Nat) : Nat :=
  if d < 2 * (x % d) ∨ (d = 2 * (x % d) ∧ (x / d) % 2 = 1) then x / d + 1 else x / d

/-- The exponent of the binary64 grid on which `m · 2^e` is rounded: it leaves 53 significant
bits, but is not below the exponent `-1074` of the subnormal numbers. -/
def gridExp (m : Nat) (e : Int) : Int :=
  max (e + bitLength m - 53) (-1074)

/-- The double `(-1)^neg · q · 2^e'` for a rounded significand `q ≤ 2^53`: a significand of
`2^53` is renormalised, and a magnitude of `2^1024` or more overflows to infinity. -/
def pack (neg : Bool) (q : Nat) (e' : Int) : Double :=
  if q = 2 ^ 53 then
    if 971 < e' + 1 then inf neg else fin neg (2 ^ 52) (e' + 1)
  else if 971 < e' then inf neg else fin neg q e'

/-- The significand of `m · 2^e` on its grid: `m · 2^(e - e')` rounded to an integer, to nearest
with ties to even, where `e'` is the grid exponent. -/
def roundSig (m : Nat) (e : Int) : Nat :=
  roundDiv (m * 2 ^ (e - gridExp m e).toNat) (2 ^ (gridExp m e - e).toNat)

/-- Rounding of the exact value `(-1)^neg · m · 2^e` to binary64, to nearest with ties to even
(the default rounding mode of C). -/
def round (neg : Bool) (m : Nat) (e : Int) : Double :=
  if m = 0 then fin neg 0 (-1074) else pack neg (roundSig m e) (gridExp m e)

/-- The C product `a * b` of two doubles: IEEE-754 multiplication in the default rounding mode,
evaluated in double precision. The sign of the result is the exclusive or of the signs, a zero
times an infinity is a NaN, and a finite product is the exact product rounded. -/
def mul : Double → Double → Double
  | nan, _ => nan
  | _, nan => nan
  | inf s, inf t => inf (xor s t)
  | inf s, fin t n _ => if n = 0 then nan else inf (xor s t)
  | fin s m _, inf t => if m = 0 then nan else inf (xor s t)
  | fin s m e, fin t n f => round (xor s t) (m * n) (e + f)

instance : Mul Double := ⟨mul⟩

/-- The double is `+0.0` or `-0.0`, the two values for which the C test `x == 0` holds. -/
def isZero : Double → Bool
  | fin _ m _ => decide (m = 0)
  | _ => false

/-- The double is neither a NaN nor an infinity. -/
def isFinite : Double → Bool
  | fin _ _ _ => true
  | _ => false

/-- The exact value of a finite double as a rational number (`0` for NaN and the infinities). -/
def toRat : Double → ℚ
  | fin neg m e => (if neg then -1 else 1) * (m : ℚ) * 2 ^ e
  | _ => 0

/-- The signed integer `(-1)^neg · m · 2^(e - c)`, for `c ≤ e`. -/
def scaled (neg : Bool) (m : Nat) (e c : Int) : Int :=
  (if neg then -1 else 1) * ((m * 2 ^ (e - c).toNat : Nat) : Int)

/-- The C comparison `a < b` of two doubles: false as soon as one is a NaN. -/
def lt : Double → Double → Bool
  | nan, _ => false
  | _, nan => false
  | inf s, inf t => s && !t
  | inf s, fin _ _ _ => s
  | fin _ _ _, inf t => !t
  | fin s m e, fin t n f => decide (scaled s m e (min e f) < scaled t n f (min e f))

/-- The C comparison `a <= b` of two doubles: false as soon as one is a NaN. -/
def le : Double → Double → Bool
  | nan, _ => false
  | _, nan => false
  | inf s, inf t => s || !t
  | inf s, fin _ _ _ => s
  | fin _ _ _, inf t => !t
  | fin s m e, fin t n f => decide (scaled s m e (min e f) ≤ scaled t n f (min e f))

/-- The double `+0.0`. -/
def zero : Double := fin false 0 (-1074)

/-- The double `1.0`. -/
def one : Double := fin false (2 ^ 52) (-52)

end Double

/-- The double of the C literal `0.1`, `0x1.999999999999ap-4`. -/
def d0_1 : Double := .fin false 7205759403792794 (-56)

/-- The double of the C literal `0.2`, `0x1.999999999999ap-3`. -/
def d0_2 : Double := .fin false 7205759403792794 (-55)

/-- The double of the C literal `0.3`, `0x1.3333333333333p-2`. -/
def d0_3 : Double := .fin false 5404319552844595 (-54)

/-- The double of the C literal `0.4`, `0x1.999999999999ap-2`. -/
def d0_4 : Double := .fin false 7205759403792794 (-54)

/-- The double of the C literal `0.6`, `0x1.3333333333333p-1`. -/
def d0_6 : Double := .fin false 5404319552844595 (-53)

/-- The double `2.0`. -/
def d2_0 : Double := .fin false 4503599627370496 (-51)

/-- The double of the C literal `1e200`, `0x1.4e718d7d7625ap+664`. -/
def d1e200 : Double := .fin false 5883593420661338 612

/-- The double of the C literal `1e-200`, `0x1.87e92154ef7acp-665`. -/
def d1em200 : Double := .fin false 6894565328877484 (-717)

/-- The double of the C literal `1.57079632`, `0x1.921fb52713c02p+0`. -/
def d1_57079632 : Double := .fin false 7074237721426946 (-52)

/-- The constant `M_PI` of `math.h`, the double nearest to pi, `0x1.921fb54442d18p+1`. -/
def M_PI : Double := .fin false 7074237752028440 (-51)

/-- The constant `M_PI_2` of `math.h`, the double nearest to pi/2, `0x1.921fb54442d18p+0`. -/
def M_PI_2 : Double := .fin false 7074237752028440 (-52)

/-- Values of the C library function `sin` on doubles at the arguments used in the examples of
this file. Annex F of the C standard fixes `sin(±0) = ±0` and a NaN for an infinite or NaN
argument; the other entries are the correctly rounded sines, as glibc returns them:
`sin(M_PI_2) = 1.0`, `sin(1.57079632) = 1.0`, `sin(1.0) = 0x1.aed548f090ceep-1` and
`sin(M_PI) = 0x1.1a62633145c07p-53`. The table stands for the library at these arguments only;
an argument that is not listed yields NaN. -/
def sin_table (x : Double) : Double :=
  match x with
  | .nan => .nan
  | .inf _ => .nan
  | .fin s m e =>
    if m = 0 then .fin s m e
    else if x = M_PI_2 then Double.one
    else if x = d1_57079632 then Double.one
    else if x = Double.one then .fin false 7579296827247854 (-53)
    else if x = M_PI then .fin false 4967757600021511 (-105)
    else .nan

/-! ## Auxiliary facts about the flattened offset -/

theorem digit_unique {N a b a' b' : Int} (ha : 0 ≤ a ∧ a < N) (ha' : 0 ≤ a' ∧ a' < N)
    (h : a + N * b = a' + N * b') : a = a' ∧ b = b' := by
  have hN : 0 < N := lt_of_le_of_lt ha.1 ha.2
  have e1 : (a + N * b) % N = a := by
    rw [Int.add_mul_emod_self_left, Int.emod_eq_of_lt ha.1 ha.2]
  have e2 : (a' + N * b') % N = a' := by
    rw [Int.add_mul_emod_self_left, Int.emod_eq_of_lt ha'.1 ha'.2]
  have haa : a = a' := by rw [← e1, ← e2, h]
  subst haa
  refine ⟨rfl, ?_⟩
  have : N * b = N * b' := by linarith
  exact mul_left_cancel₀ (ne_of_gt hN) this

theorem IDX4_inj {N0 N1 N2 g i0 i1 i2 g' j0 j1 j2 : Int}
    (hi : validIndex N0 N1 N2 i0 i1 i2) (hj : validIndex N0 N1 N2 j0 j1 j2)
    (h : IDX4 N0 N1 N2 g i0 i1 i2 = IDX4 N0 N1 N2 g' j0 j1 j2) :
    g = g' ∧ i0 = j0 ∧ i1 = j1 ∧ i2 = j2 := by
  unfold IDX4 at h
  obtain ⟨h0, h⟩ := digit_unique hi.1 hj.1 h
  obtain ⟨h1, h⟩ := digit_unique hi.2.1 hj.2.1 h
  obtain ⟨h2, h⟩ := digit_unique hi.2.2 hj.2.2 h
  exact ⟨h, h0, h1, h2⟩

/-- The offset of a valid tuple lies in the contiguous region of its field. -/
theorem IDX4_region {N0 N1 N2 g i0 i1 i2 : Int} (hi : validIndex N0 N1 N2 i0 i1 i2) :
    g * (N0 * N1 * N2) ≤ IDX4 N0 N1 N2 g i0 i1 i2 ∧
    IDX4 N0 N1 N2 g i0 i1 i2 < (g + 1) * (N0 * N1 * N2) := by
  obtain ⟨⟨a0, b0⟩, ⟨a1, b1⟩, ⟨a2, b2⟩⟩ := hi
  have hN0 : 0 < N0 := by linarith
  have hN1 : 0 < N1 := by linarith
  have key : IDX4 N0 N1 N2 g i0 i1 i2 = g * (N0 * N1 * N2) + (i0 + N0 * (i1 + N1 * i2)) := by
    unfold IDX4; ring
  rw [key]
  have l1 : 0 ≤ i1 + N1 * i2 := by positivity
  have l0 : 0 ≤ i0 + N0 * (i1 + N1 * i2) := by positivity
  have u1 : i1 + N1 * i2 + 1 ≤ N1 * N2 := by
    have : N1 * (i2 + 1) ≤ N1 * N2 := mul_le_mul_of_nonneg_left (by linarith) hN1.le
    linarith
  have u0 : i0 + N0 * (i1 + N1 * i2) + 1 ≤ N0 * (N1 * N2) := by
    have : N0 * (i1 + N1 * i2 + 1) ≤ N0 * (N1 * N2) := mul_le_mul_of_nonneg_left u1 hN0.le
    linarith
  constructor
  · linarith
  · have : (g + 1) * (N0 * N1 * N2) = g * (N0 * N1 * N2) + N0 * (N1 * N2) := by ring
    rw [this]; linarith

theorem IDX4_bounds {NUM_FIELDS N0 N1 N2 g i0 i1 i2 : Int} (hg : validField NUM_FIELDS g)
    (hi : validIndex N0 N1 N2 i0 i1 i2) :
    0 ≤ IDX4 N0 N1 N2 g i0 i1 i2 ∧ IDX4 N0 N1 N2 g i0 i1 i2 < NUM_FIELDS * (N0 * N1 * N2) := by
  obtain ⟨lo, hi'⟩ := @IDX4_region N0 N1 N2 g i0 i1 i2 hi
  obtain ⟨⟨a0, b0⟩, ⟨a1, b1⟩, ⟨a2, b2⟩⟩ := hi
  have hP : 0 ≤ N0 * N1 * N2 := by
    have : 0 ≤ N0 := by linarith
    have : 0 ≤ N1 := by linarith
    have : 0 ≤ N2 := by linarith
    positivity
  constructor
  · have : 0 ≤ g * (N0 * N1 * N2) := mul_nonneg hg.1 hP
    linarith
  · have : (g + 1) * (N0 * N1 * N2) ≤ NUM_FIELDS * (N0 * N1 * N2) :=
      mul_le_mul_of_nonneg_right (by have := hg.2; linarith) hP
    linarith

theorem IDX4_surj {N0 N1 N2 g off : Int} (hN0 : 0 < N0) (hN1 : 0 < N1)
    (lo : g * (N0 * N1 * N2) ≤ off) (hi : off < (g + 1) * (N0 * N1 * N2)) :
    ∃ i0 i1 i2, validIndex N0 N1 N2 i0 i1 i2 ∧ IDX4 N0 N1 N2 g i0 i1 i2 = off := by
  set r := off - g * (N0 * N1 * N2) with hr
  have r0 : 0 ≤ r := by linarith
  have r1 : r < N0 * (N1 * N2) := by
    have : (g + 1) * (N0 * N1 * N2) = g * (N0 * N1 * N2) + N0 * (N1 * N2) := by ring
    linarith
  refine ⟨r % N0, (r / N0) % N1, r / N0 / N1, ⟨⟨?_, ?_⟩, ⟨?_, ?_⟩, ⟨?_, ?_⟩⟩, ?_⟩
  · exact Int.emod_nonneg _ (ne_of_gt hN0)
  · exact Int.emod_lt_of_pos _ hN0
  · exact Int.emod_nonneg _ (ne_of_gt hN1)
  · exact Int.emod_lt_of_pos _ hN1
  · exact Int.ediv_nonneg (Int.ediv_nonneg r0 hN0.le) hN1.le
  · have q1 : r / N0 < N1 * N2 := Int.ediv_lt_of_lt_mul hN0 (by linarith [mul_comm N0 (N1 * N2)])
    exact Int.ediv_lt_of_lt_mul hN1 (by linarith [mul_comm N1 N2])
  · unfold IDX4
    have e1 : r % N0 + N0 * (r / N0) = r := Int.emod_add_ediv r N0
    have e2 : r / N0 % N1 + N1 * (r / N0 / N1) = r / N0 := Int.emod_add_ediv (r / N0) N1
    have : r % N0 + N0 * (r / N0 % N1 + N1 * (r / N0 / N1 + N2 * g))
        = r % N0 + N0 * ((r / N0 % N1 + N1 * (r / N0 / N1)) + N1 * N2 * g) := by ring
    rw [this, e2]
    have : r % N0 + N0 * (r / N0 + N1 * N2 * g) = (r % N0 + N0 * (r / N0)) + g * (N0 * N1 * N2) := by ring
    rw [this, e1, hr]; ring

/-! ## Auxiliary facts about buffer cells -/

theorem getElem?_setD_ne {α : Type} (a : Array α) (i j : Nat) (v : α) (h : i ≠ j) :
    (a.setD i v)[j]? = a[j]? := by
  unfold Array.setD
  split
  · exact Array.getElem?_set_ne a _ v h
  · rfl

theorem writeCell_eq_some {α : Type} (in_gfs : Array α) (off : Int) (v : α)
    (h0 : 0 ≤ off) (h1 : off < in_gfs.size) :
    writeCell in_gfs off v = some (in_gfs.setD off.toNat v) := by
  unfold writeCell
  rw [if_pos]
  exact ⟨h0, by omega⟩

theorem readCell_setD_eq {α : Type} (in_gfs : Array α) (off : Int) (v : α)
    (h0 : 0 ≤ off) (h1 : off < in_gfs.size) :
    readCell (in_gfs.setD off.toNat v) off = some v := by
  unfold readCell
  rw [if_pos h0]
  exact Array.getElem?_setD_eq in_gfs (by omega) v

theorem readCell_setD_ne {α : Type} (in_gfs : Array α) (off off' : Int) (v : α)
    (h0 : 0 ≤ off) (hne : off' ≠ off) :
    readCell (in_gfs.setD off.toNat v) off' = readCell in_gfs off' := by
  unfold readCell
  split
  · exact getElem?_setD_ne in_gfs _ _ v (by omega)
  · rfl

theorem setD_comm {α : Type} (a : Array α) (i j : Nat) (v w : α) (h : i ≠ j) :
    (a.setD i v).setD j w = (a.setD j w).setD i v := by
  apply Array.ext'
  unfold Array.setD
  by_cases hi : i < a.size <;> by_cases hj : j < a.size <;>
    simp [hi, hj, List.set_comm _ _ _ h]

/-- On a buffer that holds the `NUM_FIELDS * N0 * N1 * N2` cells of the grid, the exact-solution
block at a valid point performs both stores. -/
theorem ScalarWave_ExactSolution_eq_some {α : Type} {NUM_FIELDS N0 N1 N2 UUGF VVGF : Int}
    (in_gfs : Array α) {i0 i1 i2 : Int} (uu_in vv_in : α)
    (hsize : NUM_FIELDS * (N0 * N1 * N2) ≤ in_gfs.size)
    (hU : validField NUM_FIELDS UUGF) (hV : validField NUM_FIELDS VVGF)
    (hi : validIndex N0 N1 N2 i0 i1 i2) :
    ScalarWave_ExactSolution N0 N1 N2 UUGF VVGF in_gfs i0 i1 i2 uu_in vv_in
      = some ((in_gfs.setD (IDX4 N0 N1 N2 UUGF i0 i1 i2).toNat uu_in).setD
          (IDX4 N0 N1 N2 VVGF i0 i1 i2).toNat vv_in) := by
  obtain ⟨u0, u1⟩ := IDX4_bounds hU hi
  obtain ⟨v0, v1⟩ := IDX4_bounds hV hi
  unfold ScalarWave_ExactSolution
  rw [writeCell_eq_some in_gfs _ uu_in u0 (by linarith), Option.some_bind,
    writeCell_eq_some _ _ vv_in v0 (by rw [Array.size_setD]; linarith)]

/-- Two runs of the exact-solution block at valid points with different index tuples commute. -/
theorem ScalarWave_ExactSolution_comm {α : Type} {NUM_FIELDS N0 N1 N2 UUGF VVGF : Int}
    (in_gfs : Array α) (p q : Point α)
    (hsize : NUM_FIELDS * (N0 * N1 * N2) ≤ in_gfs.size)
    (hU : validField NUM_FIELDS UUGF) (hV : validField NUM_FIELDS VVGF)
    (hp : validIndex N0 N1 N2 p.i0 p.i1 p.i2) (hq : validIndex N0 N1 N2 q.i0 q.i1 q.i2)
    (hpq : (p.i0, p.i1, p.i2) ≠ (q.i0, q.i1, q.i2)) :
    (ScalarWave_ExactSolution N0 N1 N2 UUGF VVGF in_gfs p.i0 p.i1 p.i2 p.uu_in p.vv_in).bind
        (fun b => ScalarWave_ExactSolution N0 N1 N2 UUGF VVGF b q.i0 q.i1 q.i2 q.uu_in q.vv_in)
      = (ScalarWave_ExactSolution N0 N1 N2 UUGF VVGF in_gfs q.i0 q.i1 q.i2 q.uu_in q.vv_in).bind
        (fun b => ScalarWave_ExactSolution N0 N1 N2 UUGF VVGF b p.i0 p.i1 p.i2 p.uu_in p.vv_in) := by
  have ne : ∀ g g' : Int, validField NUM_FIELDS g → validField NUM_FIELDS g' →
      (IDX4 N0 N1 N2 g p.i0 p.i1 p.i2).toNat ≠ (IDX4 N0 N1 N2 g' q.i0 q.i1 q.i2).toNat := by
    intro g g' hg hg' h
    have a := (IDX4_bounds hg hp).1
    have b := (IDX4_bounds hg' hq).1
    have e : IDX4 N0 N1 N2 g p.i0 p.i1 p.i2 = IDX4 N0 N1 N2 g' q.i0 q.i1 q.i2 := by omega
    obtain ⟨_, e0, e1, e2⟩ := IDX4_inj hp hq e
    exact hpq (by rw [e0, e1, e2])
  rw [ScalarWave_ExactSolution_eq_some in_gfs p.uu_in p.vv_in hsize hU hV hp,
    ScalarWave_ExactSolution_eq_some in_gfs q.uu_in q.vv_in hsize hU hV hq,
    Option.some_bind, Option.some_bind,
    ScalarWave_ExactSolution_eq_some _ q.uu_in q.vv_in
      (by rw [Array.size_setD, Array.size_setD]; exact hsize) hU hV hq,
    ScalarWave_ExactSolution_eq_some _ p.uu_in p.vv_in
      (by rw [Array.size_setD, Array.size_setD]; exact hsize) hU hV hp]
  congr 1
  rw [setD_comm _ _ _ p.vv_in q.uu_in (ne VVGF UUGF hV hU),
    setD_comm _ _ _ p.uu_in q.uu_in (ne UUGF UUGF hU hU),
    setD_comm _ _ _ p.vv_in q.vv_in (ne VVGF VVGF hV hV),
    setD_comm _ _ _ p.uu_in q.vv_in (ne UUGF VVGF hU hV)]

/-- A pass over valid points runs to completion and keeps the buffer size. -/
theorem runPoints_eq_some {α : Type} {NUM_FIELDS N0 N1 N2 UUGF VVGF : Int}
    (hU : validField NUM_FIELDS UUGF) (hV : validField NUM_FIELDS VVGF)
    (pts : List (Point α)) :
    ∀ in_gfs : Array α, NUM_FIELDS * (N0 * N1 * N2) ≤ in_gfs.size →
      (∀ p ∈ pts, validIndex N0 N1 N2 p.i0 p.i1 p.i2) →
      ∃ out, runPoints N0 N1 N2 UUGF VVGF in_gfs pts = some out ∧ out.size = in_gfs.size := by
  induction pts with
  | nil => intro in_gfs _ _; exact ⟨in_gfs, rfl, rfl⟩
  | cons p ps ih =>
    intro in_gfs hsize hval
    have hp := hval p (List.mem_cons_self p ps)
    have hs : ((in_gfs.setD (IDX4 N0 N1 N2 UUGF p.i0 p.i1 p.i2).toNat p.uu_in).setD
        (IDX4 N0 N1 N2 VVGF p.i0 p.i1 p.i2).toNat p.vv_in).size = in_gfs.size := by
      rw [Array.size_setD, Array.size_setD]
    obtain ⟨out, ho, hs'⟩ := ih _ (by rw [hs]; exact hsize)
      (fun q hq => hval q (List.mem_cons_of_mem p hq))
    refine ⟨out, ?_, by rw [hs', hs]⟩
    rw [runPoints, ScalarWave_ExactSolution_eq_some in_gfs p.uu_in p.vv_in hsize hU hV hp,
      Option.some_bind]
    exact ho

/-- Permuting the valid, pairwise distinct points of a pass does not change its result. -/
theorem runPoints_perm {α : Type} {NUM_FIELDS N0 N1 N2 UUGF VVGF : Int}
    (hU : validField NUM_FIELDS UUGF) (hV : validField NUM_FIELDS VVGF)
    {pts qts : List (Point α)} (hperm : pts.Perm qts) :
    ∀ in_gfs : Array α, NUM_FIELDS * (N0 * N1 * N2) ≤ in_gfs.size →
      (∀ p ∈ pts, validIndex N0 N1 N2 p.i0 p.i1 p.i2) →
      (pts.map fun p => (p.i0, p.i1, p.i2)).Nodup →
      runPoints N0 N1 N2 UUGF VVGF in_gfs pts = runPoints N0 N1 N2 UUGF VVGF in_gfs qts := by
  induction hperm with
  | nil => intro _ _ _ _; rfl
  | cons p _ ih =>
    intro in_gfs hsize hval hnd
    have hp := hval p (List.mem_cons_self p _)
    rw [List.map_cons, List.nodup_cons] at hnd
    rw [runPoints, runPoints,
      ScalarWave_ExactSolution_eq_some in_gfs p.uu_in p.vv_in hsize hU hV hp,
      Option.some_bind, Option.some_bind]
    exact ih _ (by rw [Array.size_setD, Array.size_setD]; exact hsize)
      (fun q hq => hval q (List.mem_cons_of_mem p hq)) hnd.2
  | swap p q l =>
    intro in_gfs hsize hval hnd
    have hq : validIndex N0 N1 N2 q.i0 q.i1 q.i2 := hval q (List.mem_cons_self q _)
    have hp : validIndex N0 N1 N2 p.i0 p.i1 p.i2 :=
      hval p (List.mem_cons_of_mem q (List.mem_cons_self p l))
    have hqp : (q.i0, q.i1, q.i2) ≠ (p.i0, p.i1, p.i2) := by
      rw [List.map_cons, List.map_cons, List.nodup_cons] at hnd
      intro h
      exact hnd.1 (h ▸ List.mem_cons_self _ _)
    have hc := ScalarWave_ExactSolution_comm in_gfs q p hsize hU hV hq hp hqp
    simp only [runPoints, ← Option.bind_assoc]
    rw [hc]
  | trans h1 _ ih1 ih2 =>
    intro in_gfs hsize hval hnd
    rw [ih1 in_gfs hsize hval hnd]
    exact ih2 in_gfs hsize (fun p hp => hval p (h1.mem_iff.mpr hp))
      ((h1.map _).nodup_iff.mp hnd)

/-! ## The exact-solution write -/

/-- C2: round trip of the exact-solution write. On a buffer holding the cells of the grid, for a
valid index tuple `(i0, i1, i2)` and distinct valid field ids `UUGF`, `VVGF`, the block runs to
completion, and afterwards reading `in_gfs` at `IDX4(UUGF,i0,i1,i2)` returns exactly `uu_in` and
reading at `IDX4(VVGF,i0,i1,i2)` returns exactly `vv_in`. -/
theorem ScalarWave_ExactSolution_read_back {α : Type} (NUM_FIELDS N0 N1 N2 UUGF VVGF : Int)
    (in_gfs : Array α) (i0 i1 i2 : Int) (uu_in vv_in : α)
    (hsize : NUM_FIELDS * (N0 * N1 * N2) ≤ in_gfs.size)
    (hU : validField NUM_FIELDS UUGF) (hV : validField NUM_FIELDS VVGF) (hUV : UUGF ≠ VVGF)
    (hi : validIndex N0 N1 N2 i0 i1 i2) :
    ∃ out, ScalarWave_ExactSolution N0 N1 N2 UUGF VVGF in_gfs i0 i1 i2 uu_in vv_in = some out ∧
      readCell out (IDX4 N0 N1 N2 UUGF i0 i1 i2) = some uu_in ∧
      readCell out (IDX4 N0 N1 N2 VVGF i0 i1 i2) = some vv_in := by
  obtain ⟨u0, u1⟩ := IDX4_bounds hU hi
  obtain ⟨v0, v1⟩ := IDX4_bounds hV hi
  have hne : IDX4 N0 N1 N2 UUGF i0 i1 i2 ≠ IDX4 N0 N1 N2 VVGF i0 i1 i2 :=
    fun h => hUV (IDX4_inj hi hi h).1
  refine ⟨_, ScalarWave_ExactSolution_eq_some in_gfs uu_in vv_in hsize hU hV hi, ?_, ?_⟩
  · rw [readCell_setD_ne _ _ _ vv_in v0 hne]
    exact readCell_setD_eq in_gfs _ uu_in u0 (by linarith)
  · exact readCell_setD_eq _ _ vv_in v0 (by rw [Array.size_setD]; linarith)

/-- Scenario 3 of the specification: `uu_in = 3.5`, `vv_in = -1.25` written at index `(4,2,7)` of
a two-field grid with padded extents `5 × 3 × 8` are read back unchanged. -/
theorem ScalarWave_ExactSolution_read_back_witness :
    ∃ out, ScalarWave_ExactSolution 5 3 8 0 1 (mkArray 240 (0 : ℚ)) 4 2 7 3.5 (-1.25) = some out ∧
      readCell out (IDX4 5 3 8 0 4 2 7) = some 3.5 ∧
      readCell out (IDX4 5 3 8 1 4 2 7) = some (-1.25) :=
  ScalarWave_ExactSolution_read_back 2 5 3 8 0 1 (mkArray 240 (0 : ℚ)) 4 2 7 3.5 (-1.25)
    (by simp) (by decide) (by decide) (by decide) (by decide)

/-- C3: frame of the exact-solution write. On a buffer holding the cells of the grid and for a
valid index tuple, the block runs to completion and keeps the buffer size; every cell whose offset
is neither `IDX4(UUGF,i0,i1,i2)` nor `IDX4(VVGF,i0,i1,i2)` holds the value it held before. In
particular every cell of a field other than `UUGF` and `VVGF`, and every cell of any field at
another valid index tuple, is unchanged. -/
theorem ScalarWave_ExactSolution_frame {α : Type} (NUM_FIELDS N0 N1 N2 UUGF VVGF : Int)
    (in_gfs : Array α) (i0 i1 i2 : Int) (uu_in vv_in : α)
    (hsize : NUM_FIELDS * (N0 * N1 * N2) ≤ in_gfs.size)
    (hU : validField NUM_FIELDS UUGF) (hV : validField NUM_FIELDS VVGF)
    (hi : validIndex N0 N1 N2 i0 i1 i2) :
    ∃ out, ScalarWave_ExactSolution N0 N1 N2 UUGF VVGF in_gfs i0 i1 i2 uu_in vv_in = some out ∧
      out.size = in_gfs.size ∧
      (∀ off : Int, off ≠ IDX4 N0 N1 N2 UUGF i0 i1 i2 → off ≠ IDX4 N0 N1 N2 VVGF i0 i1 i2 →
        readCell out off = readCell in_gfs off) ∧
      (∀ g j0 j1 j2 : Int, validIndex N0 N1 N2 j0 j1 j2 →
        (g ≠ UUGF ∧ g ≠ VVGF) ∨ (j0, j1, j2) ≠ (i0, i1, i2) →
        readCell out (IDX4 N0 N1 N2 g j0 j1 j2) = readCell in_gfs (IDX4 N0 N1 N2 g j0 j1 j2)) := by
  obtain ⟨u0, u1⟩ := IDX4_bounds hU hi
  obtain ⟨v0, v1⟩ := IDX4_bounds hV hi
  have frame : ∀ off : Int, off ≠ IDX4 N0 N1 N2 UUGF i0 i1 i2 →
      off ≠ IDX4 N0 N1 N2 VVGF i0 i1 i2 →
      readCell ((in_gfs.setD (IDX4 N0 N1 N2 UUGF i0 i1 i2).toNat uu_in).setD
        (IDX4 N0 N1 N2 VVGF i0 i1 i2).toNat vv_in) off = readCell in_gfs off := by
    intro off h1 h2
    rw [readCell_setD_ne _ _ _ vv_in v0 h2, readCell_setD_ne _ _ _ uu_in u0 h1]
  refine ⟨_, ScalarWave_ExactSolution_eq_some in_gfs uu_in vv_in hsize hU hV hi, ?_, frame, ?_⟩
  · rw [Array.size_setD, Array.size_setD]
  · intro g j0 j1 j2 hj hne
    apply frame
    · intro h
      obtain ⟨e, e0, e1, e2⟩ := IDX4_inj hj hi h
      rcases hne with hne | hne
      · exact hne.1 e
      · exact hne (by rw [e0, e1, e2])
    · intro h
      obtain ⟨e, e0, e1, e2⟩ := IDX4_inj hj hi h
      rcases hne with hne | hne
      · exact hne.2 e
      · exact hne (by rw [e0, e1, e2])

/-- Scenario 3 of the specification, frame part: after the write at index `(4,2,7)` every other
cell of the `5 × 3 × 8` two-field buffer still holds its prior value. -/
theorem ScalarWave_ExactSolution_frame_witness :
    ∃ out, ScalarWave_ExactSolution 5 3 8 0 1 (mkArray 240 (7 : ℚ)) 4 2 7 3.5 (-1.25) = some out ∧
      out.size = (mkArray 240 (7 : ℚ)).size ∧
      (∀ off : Int, off ≠ IDX4 5 3 8 0 4 2 7 → off ≠ IDX4 5 3 8 1 4 2 7 →
        readCell out off = readCell (mkArray 240 (7 : ℚ)) off) ∧
      (∀ g j0 j1 j2 : Int, validIndex 5 3 8 j0 j1 j2 →
        (g ≠ 0 ∧ g ≠ 1) ∨ (j0, j1, j2) ≠ (4, 2, 7) →
        readCell out (IDX4 5 3 8 g j0 j1 j2)
          = readCell (mkArray 240 (7 : ℚ)) (IDX4 5 3 8 g j0 j1 j2)) :=
  ScalarWave_ExactSolution_frame 2 5 3 8 0 1 (mkArray 240 (7 : ℚ)) 4 2 7 3.5 (-1.25)
    (by simp) (by decide) (by decide) (by decide)

/-! ## The flattened offset -/

/-- C4: the flattened offset is injective on valid inputs. For padded extents `N0, N1, N2`
(positive as soon as a valid tuple exists), two tuples `(g,i0,i1,i2)` and `(g',j0,j1,j2)` of
valid field ids and valid indices that differ in some component have different offsets, and both
offsets are non-negative. -/
theorem IDX4_injective_on_valid (NUM_FIELDS N0 N1 N2 g i0 i1 i2 g' j0 j1 j2 : Int)
    (hg : validField NUM_FIELDS g) (hg' : validField NUM_FIELDS g')
    (hi : validIndex N0 N1 N2 i0 i1 i2) (hj : validIndex N0 N1 N2 j0 j1 j2)
    (hne : (g, i0, i1, i2) ≠ (g', j0, j1, j2)) :
    IDX4 N0 N1 N2 g i0 i1 i2 ≠ IDX4 N0 N1 N2 g' j0 j1 j2 ∧
    0 ≤ IDX4 N0 N1 N2 g i0 i1 i2 ∧ 0 ≤ IDX4 N0 N1 N2 g' j0 j1 j2 := by
  refine ⟨fun h => ?_, (IDX4_bounds hg hi).1, (IDX4_bounds hg' hj).1⟩
  obtain ⟨e, e0, e1, e2⟩ := IDX4_inj hi hj h
  exact hne (by rw [e, e0, e1, e2])

/-- Two neighbouring points of different fields on a `5 × 3 × 8` grid have different offsets. -/
theorem IDX4_injective_on_valid_witness :
    IDX4 5 3 8 0 4 2 7 ≠ IDX4 5 3 8 1 3 2 7 ∧
    0 ≤ IDX4 5 3 8 0 4 2 7 ∧ 0 ≤ IDX4 5 3 8 1 3 2 7 :=
  IDX4_injective_on_valid 2 5 3 8 0 4 2 7 1 3 2 7
    (by decide) (by decide) (by decide) (by decide) (by decide)

/-- C5: for positive padded extents and every field id `g`, the map
`(i0,i1,i2) ↦ IDX4(g,i0,i1,i2)` is a bijection from the valid index tuples onto the contiguous
region `[g·N0·N1·N2, (g+1)·N0·N1·N2)` of the field, which has exactly `N0·N1·N2` offsets; and
when `g` is one of the `NUM_FIELDS` fields, every valid tuple has its offset inside the buffer of
`NUM_FIELDS·N0·N1·N2` cells. -/
theorem IDX4_bijective_onto_field_region (NUM_FIELDS N0 N1 N2 g : Int)
    (hN0 : 0 < N0) (hN1 : 0 < N1) (hN2 : 0 < N2) :
    Set.BijOn (fun t : Int × Int × Int => IDX4 N0 N1 N2 g t.1 t.2.1 t.2.2)
      {t | validIndex N0 N1 N2 t.1 t.2.1 t.2.2}
      (Set.Ico (g * (N0 * N1 * N2)) ((g + 1) * (N0 * N1 * N2))) ∧
    ((Finset.Ico (g * (N0 * N1 * N2)) ((g + 1) * (N0 * N1 * N2))).card : Int) = N0 * N1 * N2 ∧
    (validField NUM_FIELDS g → ∀ i0 i1 i2 : Int, validIndex N0 N1 N2 i0 i1 i2 →
      0 ≤ IDX4 N0 N1 N2 g i0 i1 i2 ∧ IDX4 N0 N1 N2 g i0 i1 i2 < NUM_FIELDS * N0 * N1 * N2) := by
  refine ⟨⟨?_, ?_, ?_⟩, ?_, ?_⟩
  · intro t ht
    exact IDX4_region ht
  · intro t ht t' ht' h
    obtain ⟨_, e0, e1, e2⟩ := IDX4_inj ht ht' h
    exact Prod.ext e0 (Prod.ext e1 e2)
  · intro off hoff
    obtain ⟨i0, i1, i2, hv, he⟩ := IDX4_surj hN0 hN1 hoff.1 hoff.2
    exact ⟨(i0, i1, i2), hv, he⟩
  · have hP : 0 ≤ N0 * N1 * N2 := by positivity
    rw [Int.card_Ico]
    have : (g + 1) * (N0 * N1 * N2) - g * (N0 * N1 * N2) = N0 * N1 * N2 := by ring
    rw [this, Int.toNat_of_nonneg hP]
  · intro hg i0 i1 i2 hi
    have := IDX4_bounds hg hi
    refine ⟨this.1, ?_⟩
    have e : NUM_FIELDS * N0 * N1 * N2 = NUM_FIELDS * (N0 * N1 * N2) := by ring
    rw [e]; exact this.2

/-- The `VVGF` region of a two-field `5 × 3 × 8` grid is the offset range `[120, 240)`. -/
theorem IDX4_bijective_onto_field_region_witness :
    Set.BijOn (fun t : Int × Int × Int => IDX4 5 3 8 1 t.1 t.2.1 t.2.2)
      {t | validIndex 5 3 8 t.1 t.2.1 t.2.2}
      (Set.Ico (1 * (5 * 3 * 8)) ((1 + 1) * (5 * 3 * 8))) ∧
    ((Finset.Ico ((1 : Int) * (5 * 3 * 8)) ((1 + 1) * (5 * 3 * 8))).card : Int) = 5 * 3 * 8 ∧
    (validField 2 1 → ∀ i0 i1 i2 : Int, validIndex 5 3 8 i0 i1 i2 →
      0 ≤ IDX4 5 3 8 1 i0 i1 i2 ∧ IDX4 5 3 8 1 i0 i1 i2 < 2 * 5 * 3 * 8) :=
  IDX4_bijective_onto_field_region 2 5 3 8 1 (by decide) (by decide) (by decide)

/-- C6: stride law of the flattened offset. For positive extents `N0`, `N1` and all `g, i0, i1,
i2`, a step of `i0` changes the offset by `1`, a step of `i1` by `N0` and a step of `i2` by
`N0·N1`: three constants that do not depend on `g, i0, i1, i2`. The `i1` and `i2` strides are at
least the `i0` stride, strictly larger when `N0 > 1`, respectively when `N0 > 1` or `N1 > 1`.
No validity of the tuple or of its neighbour is needed. -/
theorem IDX4_stride (N0 N1 N2 g i0 i1 i2 : Int) (hN0 : 0 < N0) (hN1 : 0 < N1) :
    IDX4 N0 N1 N2 g (i0 + 1) i1 i2 - IDX4 N0 N1 N2 g i0 i1 i2 = 1 ∧
    IDX4 N0 N1 N2 g i0 (i1 + 1) i2 - IDX4 N0 N1 N2 g i0 i1 i2 = N0 ∧
    IDX4 N0 N1 N2 g i0 i1 (i2 + 1) - IDX4 N0 N1 N2 g i0 i1 i2 = N0 * N1 ∧
    IDX4 N0 N1 N2 g (i0 + 1) i1 i2 - IDX4 N0 N1 N2 g i0 i1 i2
      ≤ IDX4 N0 N1 N2 g i0 (i1 + 1) i2 - IDX4 N0 N1 N2 g i0 i1 i2 ∧
    IDX4 N0 N1 N2 g (i0 + 1) i1 i2 - IDX4 N0 N1 N2 g i0 i1 i2
      ≤ IDX4 N0 N1 N2 g i0 i1 (i2 + 1) - IDX4 N0 N1 N2 g i0 i1 i2 ∧
    (1 < N0 → IDX4 N0 N1 N2 g (i0 + 1) i1 i2 - IDX4 N0 N1 N2 g i0 i1 i2
      < IDX4 N0 N1 N2 g i0 (i1 + 1) i2 - IDX4 N0 N1 N2 g i0 i1 i2) ∧
    (1 < N0 ∨ 1 < N1 → IDX4 N0 N1 N2 g (i0 + 1) i1 i2 - IDX4 N0 N1 N2 g i0 i1 i2
      < IDX4 N0 N1 N2 g i0 i1 (i2 + 1) - IDX4 N0 N1 N2 g i0 i1 i2) := by
  have s0 : IDX4 N0 N1 N2 g (i0 + 1) i1 i2 - IDX4 N0 N1 N2 g i0 i1 i2 = 1 := by
    unfold IDX4; ring
  have s1 : IDX4 N0 N1 N2 g i0 (i1 + 1) i2 - IDX4 N0 N1 N2 g i0 i1 i2 = N0 := by
    unfold IDX4; ring
  have s2 : IDX4 N0 N1 N2 g i0 i1 (i2 + 1) - IDX4 N0 N1 N2 g i0 i1 i2 = N0 * N1 := by
    unfold IDX4; ring
  have p : 1 ≤ N0 * N1 := one_le_mul_of_one_le_of_one_le hN0 hN1
  rw [s0, s1, s2]
  refine ⟨rfl, rfl, rfl, hN0, p, fun h => h, fun h => ?_⟩
  rcases h with h | h
  · calc (1 : Int) < N0 := h
      _ = N0 * 1 := (mul_one N0).symm
      _ ≤ N0 * N1 := mul_le_mul_of_nonneg_left hN1 hN0.le
  · calc (1 : Int) < N1 := h
      _ = 1 * N1 := (one_mul N1).symm
      _ ≤ N0 * N1 := mul_le_mul_of_nonneg_right hN0 (le_trans zero_le_one hN1)

/-- On a `5 × 3 × 8` grid the three strides at the point `(3,1,4)` of field `1` are `1`, `5`
and `15`. -/
theorem IDX4_stride_witness :
    IDX4 5 3 8 1 (3 + 1) 1 4 - IDX4 5 3 8 1 3 1 4 = 1 ∧
    IDX4 5 3 8 1 3 (1 + 1) 4 - IDX4 5 3 8 1 3 1 4 = 5 ∧
    IDX4 5 3 8 1 3 1 (4 + 1) - IDX4 5 3 8 1 3 1 4 = 5 * 3 ∧
    IDX4 5 3 8 1 (3 + 1) 1 4 - IDX4 5 3 8 1 3 1 4
      ≤ IDX4 5 3 8 1 3 (1 + 1) 4 - IDX4 5 3 8 1 3 1 4 ∧
    IDX4 5 3 8 1 (3 + 1) 1 4 - IDX4 5 3 8 1 3 1 4
      ≤ IDX4 5 3 8 1 3 1 (4 + 1) - IDX4 5 3 8 1 3 1 4 ∧
    ((1 : Int) < 5 → IDX4 5 3 8 1 (3 + 1) 1 4 - IDX4 5 3 8 1 3 1 4
      < IDX4 5 3 8 1 3 (1 + 1) 4 - IDX4 5 3 8 1 3 1 4) ∧
    ((1 : Int) < 5 ∨ (1 : Int) < 3 → IDX4 5 3 8 1 (3 + 1) 1 4 - IDX4 5 3 8 1 3 1 4
      < IDX4 5 3 8 1 3 1 (4 + 1) - IDX4 5 3 8 1 3 1 4) :=
  IDX4_stride 5 3 8 1 3 1 4 (by decide) (by decide)

/-! ## The `ds_dirn` kernel -/

/-- C1: for every `dxx0, dxx1, dxx2, xx0, xx1` and whatever the result variables held before, the
`ds_dirn` block leaves `ds_dirn0 = dxx0`, `ds_dirn1 = dxx1*xx0` and `ds_dirn2 = dxx2*xx0*sin(xx1)`,
and so agrees with the reference formula of the specification in all three directions. This holds
for every scalar type with a multiplication and every `sin`. -/
theorem ds_dirn_eq_reference {α : Type} [Mul α] (sin : α → α) (dxx0 dxx1 dxx2 xx0 xx1 : α)
    (s : DsDirn α) :
    (ds_dirn sin dxx0 dxx1 dxx2 xx0 xx1 s).ds_dirn0 = dxx0 ∧
    (ds_dirn sin dxx0 dxx1 dxx2 xx0 xx1 s).ds_dirn1 = dxx1 * xx0 ∧
    (ds_dirn sin dxx0 dxx1 dxx2 xx0 xx1 s).ds_dirn2 = dxx2 * xx0 * sin xx1 ∧
    ((ds_dirn sin dxx0 dxx1 dxx2 xx0 xx1 s).ds_dirn0,
      (ds_dirn sin dxx0 dxx1 dxx2 xx0 xx1 s).ds_dirn1,
      (ds_dirn sin dxx0 dxx1 dxx2 xx0 xx1 s).ds_dirn2)
      = CoordinateFactorEvaluator_compute sin dxx0 dxx1 dxx2 xx0 xx1 :=
  ⟨rfl, rfl, rfl, rfl⟩

/-! ## Order of the per-point writes -/

/-- C10: order independence of the per-point exact-solution writes. On a buffer holding the cells
of the grid, for two valid points `p`, `q` with different index tuples (each with its own `uu_in`,
`vv_in`), running the block for `p` then `q` completes and yields the same buffer as running it
for `q` then `p`; and for a list of valid points with pairwise different index tuples, a pass over
any reordering of the list completes with the same final buffer. -/
theorem ScalarWave_ExactSolution_order_independent {α : Type}
    (NUM_FIELDS N0 N1 N2 UUGF VVGF : Int) (in_gfs : Array α) (p q : Point α)
    (pts qts : List (Point α))
    (hsize : NUM_FIELDS * (N0 * N1 * N2) ≤ in_gfs.size)
    (hU : validField NUM_FIELDS UUGF) (hV : validField NUM_FIELDS VVGF)
    (hp : validIndex N0 N1 N2 p.i0 p.i1 p.i2) (hq : validIndex N0 N1 N2 q.i0 q.i1 q.i2)
    (hpq : (p.i0, p.i1, p.i2) ≠ (q.i0, q.i1, q.i2))
    (hval : ∀ r ∈ pts, validIndex N0 N1 N2 r.i0 r.i1 r.i2)
    (hnd : (pts.map fun r => (r.i0, r.i1, r.i2)).Nodup) (hperm : pts.Perm qts) :
    (∃ out,
      (ScalarWave_ExactSolution N0 N1 N2 UUGF VVGF in_gfs p.i0 p.i1 p.i2 p.uu_in p.vv_in).bind
        (fun b => ScalarWave_ExactSolution N0 N1 N2 UUGF VVGF b q.i0 q.i1 q.i2 q.uu_in q.vv_in)
        = some out ∧
      (ScalarWave_ExactSolution N0 N1 N2 UUGF VVGF in_gfs q.i0 q.i1 q.i2 q.uu_in q.vv_in).bind
        (fun b => ScalarWave_ExactSolution N0 N1 N2 UUGF VVGF b p.i0 p.i1 p.i2 p.uu_in p.vv_in)
        = some out) ∧
    (∃ out, runPoints N0 N1 N2 UUGF VVGF in_gfs pts = some out ∧
      runPoints N0 N1 N2 UUGF VVGF in_gfs qts = some out) := by
  constructor
  · have hc := ScalarWave_ExactSolution_comm in_gfs p q hsize hU hV hp hq hpq
    have hs : ∀ r : Point α, validIndex N0 N1 N2 r.i0 r.i1 r.i2 → ∀ b : Array α,
        NUM_FIELDS * (N0 * N1 * N2) ≤ b.size →
        ∃ out, ScalarWave_ExactSolution N0 N1 N2 UUGF VVGF b r.i0 r.i1 r.i2 r.uu_in r.vv_in
          = some out ∧ out.size = b.size := by
      intro r hr b hb
      exact ⟨_, ScalarWave_ExactSolution_eq_some b r.uu_in r.vv_in hb hU hV hr,
        by rw [Array.size_setD, Array.size_setD]⟩
    obtain ⟨b1, e1, s1⟩ := hs p hp in_gfs hsize
    obtain ⟨b2, e2, _⟩ := hs q hq b1 (by rw [s1]; exact hsize)
    refine ⟨b2, ?_, ?_⟩
    · rw [e1, Option.some_bind, e2]
    · rw [← hc, e1, Option.some_bind, e2]
  · obtain ⟨out, ho, _⟩ := runPoints_eq_some hU hV pts in_gfs hsize hval
    exact ⟨out, ho, by rw [← runPoints_perm hU hV hperm in_gfs hsize hval hnd]; exact ho⟩

/-- Three points of a two-field `5 × 3 × 8` grid, processed in two different orders. -/
theorem ScalarWave_ExactSolution_order_independent_witness :
    (∃ out,
      (ScalarWave_ExactSolution 5 3 8 0 1 (mkArray 240 (0 : ℚ)) 4 2 7 3.5 (-1.25)).bind
        (fun b => ScalarWave_ExactSolution 5 3 8 0 1 b 3 2 7 1 2) = some out ∧
      (ScalarWave_ExactSolution 5 3 8 0 1 (mkArray 240 (0 : ℚ)) 3 2 7 1 2).bind
        (fun b => ScalarWave_ExactSolution 5 3 8 0 1 b 4 2 7 3.5 (-1.25)) = some out) ∧
    (∃ out,
      runPoints 5 3 8 0 1 (mkArray 240 (0 : ℚ))
        ([⟨4, 2, 7, 3.5, -1.25⟩, ⟨3, 2, 7, 1, 2⟩] ++ [⟨0, 0, 0, 5, 6⟩]) = some out ∧
      runPoints 5 3 8 0 1 (mkArray 240 (0 : ℚ))
        ([⟨0, 0, 0, 5, 6⟩] ++ [⟨4, 2, 7, 3.5, -1.25⟩, ⟨3, 2, 7, 1, 2⟩]) = some out) :=
  by
  have h := ScalarWave_ExactSolution_order_independent 2 5 3 8 0 1 (mkArray 240 (0 : ℚ))
    ⟨4, 2, 7, 3.5, -1.25⟩ ⟨3, 2, 7, 1, 2⟩
    ([⟨4, 2, 7, 3.5, -1.25⟩, ⟨3, 2, 7, 1, 2⟩] ++ [⟨0, 0, 0, 5, 6⟩])
    ([⟨0, 0, 0, 5, 6⟩] ++ [⟨4, 2, 7, 3.5, -1.25⟩, ⟨3, 2, 7, 1, 2⟩])
    (by simp) (by decide) (by decide) (by decide) (by decide) (by decide)
    (by simp [validIndex]) (by simp) List.perm_append_comm
  exact h

/-! ## Determinism and idempotence of the exact-solution write -/

/-- Storing twice into the same cell keeps the last value only. -/
theorem setD_setD_same {α : Type} (a : Array α) (i : Nat) (v w : α) :
    (a.setD i v).setD i w = a.setD i w := by
  apply Array.ext'
  unfold Array.setD
  by_cases hi : i < a.size <;> simp [hi, List.set_set]

/-- After the two stores of the block, the `UUGF` and `VVGF` cells of the point hold `uu_in` and
`vv_in`, whatever the buffer held before. -/
theorem readCell_written {α : Type} {NUM_FIELDS N0 N1 N2 UUGF VVGF : Int}
    (in_gfs : Array α) {i0 i1 i2 : Int} (uu_in vv_in : α)
    (hsize : NUM_FIELDS * (N0 * N1 * N2) ≤ in_gfs.size)
    (hU : validField NUM_FIELDS UUGF) (hV : validField NUM_FIELDS VVGF) (hUV : UUGF ≠ VVGF)
    (hi : validIndex N0 N1 N2 i0 i1 i2) :
    readCell ((in_gfs.setD (IDX4 N0 N1 N2 UUGF i0 i1 i2).toNat uu_in).setD
        (IDX4 N0 N1 N2 VVGF i0 i1 i2).toNat vv_in) (IDX4 N0 N1 N2 UUGF i0 i1 i2) = some uu_in ∧
    readCell ((in_gfs.setD (IDX4 N0 N1 N2 UUGF i0 i1 i2).toNat uu_in).setD
        (IDX4 N0 N1 N2 VVGF i0 i1 i2).toNat vv_in) (IDX4 N0 N1 N2 VVGF i0 i1 i2) = some vv_in := by
  obtain ⟨u0, u1⟩ := IDX4_bounds hU hi
  obtain ⟨v0, v1⟩ := IDX4_bounds hV hi
  have hne : IDX4 N0 N1 N2 UUGF i0 i1 i2 ≠ IDX4 N0 N1 N2 VVGF i0 i1 i2 :=
    fun h => hUV (IDX4_inj hi hi h).1
  constructor
  · rw [readCell_setD_ne _ _ _ vv_in v0 hne]
    exact readCell_setD_eq in_gfs _ uu_in u0 (by linarith)
  · exact readCell_setD_eq _ _ vv_in v0 (by rw [Array.size_setD]; linarith)

/-- C11: the exact-solution write is deterministic and has no hidden state. Two runs of the block
with identical `(i0, i1, i2, uu_in, vv_in)` on two arbitrary initial buffers (each holding the
cells of the grid) both complete and store identical values in the `UUGF` and `VVGF` cells of the
point, namely exactly `uu_in` and `vv_in`: the stored values depend on the inputs of the block
only, not on the buffer it starts from. -/
theorem ScalarWave_ExactSolution_deterministic {α : Type} (NUM_FIELDS N0 N1 N2 UUGF VVGF : Int)
    (in_gfs in_gfs' : Array α) (i0 i1 i2 : Int) (uu_in vv_in : α)
    (hsize : NUM_FIELDS * (N0 * N1 * N2) ≤ in_gfs.size)
    (hsize' : NUM_FIELDS * (N0 * N1 * N2) ≤ in_gfs'.size)
    (hU : validField NUM_FIELDS UUGF) (hV : validField NUM_FIELDS VVGF) (hUV : UUGF ≠ VVGF)
    (hi : validIndex N0 N1 N2 i0 i1 i2) :
    ∃ out out',
      ScalarWave_ExactSolution N0 N1 N2 UUGF VVGF in_gfs i0 i1 i2 uu_in vv_in = some out ∧
      ScalarWave_ExactSolution N0 N1 N2 UUGF VVGF in_gfs' i0 i1 i2 uu_in vv_in = some out' ∧
      readCell out (IDX4 N0 N1 N2 UUGF i0 i1 i2) = readCell out' (IDX4 N0 N1 N2 UUGF i0 i1 i2) ∧
      readCell out (IDX4 N0 N1 N2 VVGF i0 i1 i2) = readCell out' (IDX4 N0 N1 N2 VVGF i0 i1 i2) ∧
      readCell out (IDX4 N0 N1 N2 UUGF i0 i1 i2) = some uu_in ∧
      readCell out (IDX4 N0 N1 N2 VVGF i0 i1 i2) = some vv_in := by
  have r := readCell_written in_gfs uu_in vv_in hsize hU hV hUV hi
  have r' := readCell_written in_gfs' uu_in vv_in hsize' hU hV hUV hi
  exact ⟨_, _, ScalarWave_ExactSolution_eq_some in_gfs uu_in vv_in hsize hU hV hi,
    ScalarWave_ExactSolution_eq_some in_gfs' uu_in vv_in hsize' hU hV hi,
    r.1.trans r'.1.symm, r.2.trans r'.2.symm, r.1, r.2⟩

/-- Two runs at index `(4,2,7)` with `uu_in = 3.5`, `vv_in = -1.25`, one on a buffer of zeros and
one on a buffer of sevens, leave the same two values in the written cells. -/
theorem ScalarWave_ExactSolution_deterministic_witness :
    ∃ out out',
      ScalarWave_ExactSolution 5 3 8 0 1 (mkArray 240 (0 : ℚ)) 4 2 7 3.5 (-1.25) = some out ∧
      ScalarWave_ExactSolution 5 3 8 0 1 (mkArray 240 (7 : ℚ)) 4 2 7 3.5 (-1.25) = some out' ∧
      readCell out (IDX4 5 3 8 0 4 2 7) = readCell out' (IDX4 5 3 8 0 4 2 7) ∧
      readCell out (IDX4 5 3 8 1 4 2 7) = readCell out' (IDX4 5 3 8 1 4 2 7) ∧
      readCell out (IDX4 5 3 8 0 4 2 7) = some 3.5 ∧
      readCell out (IDX4 5 3 8 1 4 2 7) = some (-1.25) :=
  ScalarWave_ExactSolution_deterministic 2 5 3 8 0 1 (mkArray 240 (0 : ℚ)) (mkArray 240 (7 : ℚ))
    4 2 7 3.5 (-1.25) (by simp) (by simp) (by decide) (by decide) (by decide) (by decide)

/-- C14: the exact-solution write is idempotent. On a buffer holding the cells of the grid, for a
valid index tuple and every `uu_in`, `vv_in`, the block completes, and running it a second time
with the same inputs on the buffer it left returns that same buffer. -/
theorem ScalarWave_ExactSolution_idempotent {α : Type} (NUM_FIELDS N0 N1 N2 UUGF VVGF : Int)
    (in_gfs : Array α) (i0 i1 i2 : Int) (uu_in vv_in : α)
    (hsize : NUM_FIELDS * (N0 * N1 * N2) ≤ in_gfs.size)
    (hU : validField NUM_FIELDS UUGF) (hV : validField NUM_FIELDS VVGF)
    (hi : validIndex N0 N1 N2 i0 i1 i2) :
    (∃ out, ScalarWave_ExactSolution N0 N1 N2 UUGF VVGF in_gfs i0 i1 i2 uu_in vv_in = some out ∧
      ScalarWave_ExactSolution N0 N1 N2 UUGF VVGF out i0 i1 i2 uu_in vv_in = some out) ∧
    (ScalarWave_ExactSolution N0 N1 N2 UUGF VVGF in_gfs i0 i1 i2 uu_in vv_in).bind
        (fun b => ScalarWave_ExactSolution N0 N1 N2 UUGF VVGF b i0 i1 i2 uu_in vv_in)
      = ScalarWave_ExactSolution N0 N1 N2 UUGF VVGF in_gfs i0 i1 i2 uu_in vv_in := by
  have e1 := ScalarWave_ExactSolution_eq_some in_gfs uu_in vv_in hsize hU hV hi
  have e2 := ScalarWave_ExactSolution_eq_some
    ((in_gfs.setD (IDX4 N0 N1 N2 UUGF i0 i1 i2).toNat uu_in).setD
      (IDX4 N0 N1 N2 VVGF i0 i1 i2).toNat vv_in) uu_in vv_in
    (by rw [Array.size_setD, Array.size_setD]; exact hsize) hU hV hi
  have fix : (((in_gfs.setD (IDX4 N0 N1 N2 UUGF i0 i1 i2).toNat uu_in).setD
        (IDX4 N0 N1 N2 VVGF i0 i1 i2).toNat vv_in).setD
        (IDX4 N0 N1 N2 UUGF i0 i1 i2).toNat uu_in).setD
        (IDX4 N0 N1 N2 VVGF i0 i1 i2).toNat vv_in
      = (in_gfs.setD (IDX4 N0 N1 N2 UUGF i0 i1 i2).toNat uu_in).setD
        (IDX4 N0 N1 N2 VVGF i0 i1 i2).toNat vv_in := by
    by_cases h : (IDX4 N0 N1 N2 VVGF i0 i1 i2).toNat = (IDX4 N0 N1 N2 UUGF i0 i1 i2).toNat
    · rw [h, setD_setD_same, setD_setD_same, setD_setD_same]
    · rw [setD_comm _ _ _ vv_in uu_in h, setD_setD_same, setD_setD_same]
  rw [fix] at e2
  exact ⟨⟨_, e1, e2⟩, by rw [e1, Option.some_bind, e2]⟩

/-- Writing `3.5` and `-1.25` at index `(4,2,7)` twice is the same as writing them once. -/
theorem ScalarWave_ExactSolution_idempotent_witness :
    (∃ out, ScalarWave_ExactSolution 5 3 8 0 1 (mkArray 240 (0 : ℚ)) 4 2 7 3.5 (-1.25) = some out ∧
      ScalarWave_ExactSolution 5 3 8 0 1 out 4 2 7 3.5 (-1.25) = some out) ∧
    (ScalarWave_ExactSolution 5 3 8 0 1 (mkArray 240 (0 : ℚ)) 4 2 7 3.5 (-1.25)).bind
        (fun b => ScalarWave_ExactSolution 5 3 8 0 1 b 4 2 7 3.5 (-1.25))
      = ScalarWave_ExactSolution 5 3 8 0 1 (mkArray 240 (0 : ℚ)) 4 2 7 3.5 (-1.25) :=
  ScalarWave_ExactSolution_idempotent 2 5 3 8 0 1 (mkArray 240 (0 : ℚ)) 4 2 7 3.5 (-1.25)
    (by simp) (by decide) (by decide) (by decide)

/-! ## Auxiliary facts about binary64 rounding -/

namespace Double

theorem bitsAux_zero (fuel : Nat) : bitsAux fuel 0 = 0 := by
  cases fuel <;> simp [bitsAux]

theorem bitsAux_spec : ∀ fuel m : Nat, m ≤ fuel → m ≠ 0 →
    2 ^ bitsAux fuel m ≤ 2 * m ∧ m < 2 ^ bitsAux fuel m := by
  intro fuel
  induction fuel with
  | zero => intro m h0 h1; omega
  | succ fuel ih =>
    intro m hle hne
    rw [bitsAux, if_neg hne]
    by_cases h2 : m / 2 = 0
    · rw [h2, bitsAux_zero]
      have : m = 1 := by omega
      subst this
      decide
    · obtain ⟨l, u⟩ := ih (m / 2) (by omega) h2
      rw [Nat.pow_succ]
      constructor <;> omega

/-- The bit length `b` of a nonzero `m` satisfies `2^(b-1) ≤ m < 2^b`. -/
theorem bitLength_spec {m : Nat} (hne : m ≠ 0) :
    2 ^ bitLength m ≤ 2 * m ∧ m < 2 ^ bitLength m :=
  bitsAux_spec m m (Nat.le_refl m) hne

theorem roundDiv_eq_zero_iff {x d : Nat} (hd : 0 < d) : roundDiv x d = 0 ↔ 2 * x ≤ d := by
  unfold roundDiv
  have hmod := Nat.mod_lt x hd
  constructor
  · intro h
    by_cases hup : d < 2 * (x % d) ∨ (d = 2 * (x % d) ∧ (x / d) % 2 = 1)
    · rw [if_pos hup] at h
      exact absurd h (Nat.succ_ne_zero _)
    · rw [if_neg hup] at h
      have hlt : x < d := (Nat.div_eq_zero_iff hd).mp h
      rw [Nat.mod_eq_of_lt hlt, h] at hup
      omega
  · intro h
    have hlt : x < d := by omega
    have hq : x / d = 0 := Nat.div_eq_of_lt hlt
    have hr : x % d = x := Nat.mod_eq_of_lt hlt
    rw [hq, hr, if_neg]
    omega

theorem roundDiv_le {x d N : Nat} (hd : 0 < d) (h : x ≤ N * d) : roundDiv x d ≤ N := by
  unfold roundDiv
  have hmod := Nat.mod_lt x hd
  have hq : x / d ≤ N := by
    calc x / d ≤ N * d / d := Nat.div_le_div_right h
      _ = N := Nat.mul_div_cancel N hd
  by_cases hup : d < 2 * (x % d) ∨ (d = 2 * (x % d) ∧ (x / d) % 2 = 1)
  · rw [if_pos hup]
    by_contra hcon
    have hqN : x / d = N := Nat.le_antisymm hq (Nat.le_of_lt_succ (Nat.lt_of_not_le hcon))
    have hdiv := Nat.div_add_mod x d
    rw [hqN, Nat.mul_comm d N] at hdiv
    have hr0 : x % d = 0 := by omega
    rw [hr0] at hup
    omega
  · rw [if_neg hup]
    exact hq

theorem le_roundDiv {x d A : Nat} (hd : 0 < d) (h : A * d ≤ x) : A ≤ roundDiv x d := by
  unfold roundDiv
  have hq : A ≤ x / d := (Nat.le_div_iff_mul_le hd).mpr h
  by_cases hup : d < 2 * (x % d) ∨ (d = 2 * (x % d) ∧ (x / d) % 2 = 1)
  · rw [if_pos hup]; exact Nat.le_succ_of_le hq
  · rw [if_neg hup]; exact hq

theorem gridExp_ge (m : Nat) (e : Int) : -1074 ≤ gridExp m e := le_max_right _ _

/-- On the normal part of the grid the scaled significand has exactly 53 bits. -/
theorem grid_normal {m : Nat} {e : Int} (hm : m ≠ 0) (h : -1074 ≤ e + bitLength m - 53) :
    gridExp m e = e + bitLength m - 53 ∧
    2 ^ 52 * 2 ^ (gridExp m e - e).toNat ≤ m * 2 ^ (e - gridExp m e).toNat ∧
    m * 2 ^ (e - gridExp m e).toNat < 2 ^ 53 * 2 ^ (gridExp m e - e).toNat := by
  have hg : gridExp m e = e + bitLength m - 53 := max_eq_left h
  obtain ⟨lo, up⟩ := bitLength_spec hm
  rw [hg]
  have hjk : (e - (e + bitLength m - 53)).toNat + bitLength m
      = (e + bitLength m - 53 - e).toNat + 53 := by omega
  generalize (e - (e + bitLength m - 53)).toNat = j at hjk ⊢
  generalize (e + bitLength m - 53 - e).toNat = k at hjk ⊢
  have hpow : 2 ^ j * 2 ^ bitLength m = 2 ^ k * 2 ^ 53 := by
    rw [← pow_add, ← pow_add, hjk]
  have hj : 0 < 2 ^ j := Nat.pow_pos (by norm_num)
  refine ⟨rfl, ?_, ?_⟩
  · have h1 : 2 ^ bitLength m * 2 ^ j ≤ 2 * m * 2 ^ j := Nat.mul_le_mul_right _ lo
    have h2 : 2 ^ 53 = 2 * 2 ^ 52 := by norm_num
    nlinarith
  · have h1 : m * 2 ^ j < 2 ^ bitLength m * 2 ^ j := Nat.mul_lt_mul_of_pos_right up hj
    nlinarith

/-- On the subnormal part of the grid the scaled significand has at most 52 bits. -/
theorem grid_subnormal {m : Nat} {e : Int} (hm : m ≠ 0) (h : e + bitLength m - 53 < -1074) :
    gridExp m e = -1074 ∧
    m * 2 ^ (e - gridExp m e).toNat < 2 ^ 52 * 2 ^ (gridExp m e - e).toNat := by
  have hg : gridExp m e = -1074 := max_eq_right (le_of_lt h)
  obtain ⟨_, up⟩ := bitLength_spec hm
  rw [hg]
  have hjk : (e - (-1074)).toNat + bitLength m ≤ (-1074 - e).toNat + 52 := by omega
  generalize (e - (-1074)).toNat = j at hjk ⊢
  generalize (-1074 - e).toNat = k at hjk ⊢
  have hj : 0 < 2 ^ j := Nat.pow_pos (by norm_num)
  refine ⟨rfl, ?_⟩
  have h1 : m * 2 ^ j < 2 ^ bitLength m * 2 ^ j := Nat.mul_lt_mul_of_pos_right up hj
  have h2 : 2 ^ bitLength m * 2 ^ j ≤ 2 ^ 52 * 2 ^ k := by
    rw [← pow_add, ← pow_add]
    exact Nat.pow_le_pow_right (by norm_num) (by omega)
  exact lt_of_lt_of_le h1 h2

/-- A power of two with an integer exponent as a quotient of two natural powers. -/
theorem two_zpow_eq (a : Int) : (2 : ℚ) ^ a = 2 ^ a.toNat / 2 ^ (-a).toNat := by
  rcases le_total 0 a with h | h
  · have h1 : (-a).toNat = 0 := by omega
    rw [h1, pow_zero, div_one, ← zpow_natCast, Int.toNat_of_nonneg h]
  · have h1 : a.toNat = 0 := by omega
    have h2 : ((-a).toNat : Int) = -a := Int.toNat_of_nonneg (by omega)
    rw [h1, pow_zero, one_div, ← zpow_natCast, h2, zpow_neg, inv_inv]

/-- The exact value in terms of the scaled significand: `m · 2^e = (x / d) · 2^e'`. -/
theorem value_eq (m : Nat) (e e' : Int) :
    (m : ℚ) * 2 ^ e
      = ((m * 2 ^ (e - e').toNat : Nat) : ℚ) / ((2 ^ (e' - e).toNat : Nat) : ℚ) * 2 ^ e' := by
  have h2 : (2 : ℚ) ^ e = 2 ^ (e - e') * 2 ^ e' := by
    rw [← zpow_add₀ (by norm_num : (2 : ℚ) ≠ 0)]
    congr 1
    ring
  have h3 : -(e - e') = e' - e := by ring
  rw [h2, two_zpow_eq (e - e'), h3]
  push_cast
  ring

theorem roundSig_normal {m : Nat} {e : Int} (hm : m ≠ 0) (h : -1074 ≤ e + bitLength m - 53) :
    2 ^ 52 ≤ roundSig m e ∧ roundSig m e ≤ 2 ^ 53 := by
  obtain ⟨_, lo, up⟩ := grid_normal hm h
  have hd : 0 < 2 ^ (gridExp m e - e).toNat := Nat.pow_pos (by norm_num)
  exact ⟨le_roundDiv hd lo, roundDiv_le hd (le_of_lt up)⟩

theorem roundSig_subnormal {m : Nat} {e : Int} (hm : m ≠ 0)
    (h : e + bitLength m - 53 < -1074) : gridExp m e = -1074 ∧ roundSig m e ≤ 2 ^ 52 := by
  obtain ⟨hg, up⟩ := grid_subnormal hm h
  have hd : 0 < 2 ^ (gridExp m e - e).toNat := Nat.pow_pos (by norm_num)
  exact ⟨hg, roundDiv_le hd (le_of_lt up)⟩

/-- The exact value is at least `2^52` grid steps on the normal part of the grid. -/
theorem value_ge_normal {m : Nat} {e : Int} (hm : m ≠ 0) (h : -1074 ≤ e + bitLength m - 53) :
    (2 : ℚ) ^ 52 * 2 ^ gridExp m e ≤ (m : ℚ) * 2 ^ e := by
  obtain ⟨_, lo, _⟩ := grid_normal hm h
  rw [value_eq m e (gridExp m e)]
  have hd : (0 : ℚ) < ((2 ^ (gridExp m e - e).toNat : Nat) : ℚ) := by positivity
  have hg : (0 : ℚ) < 2 ^ gridExp m e := by positivity
  apply mul_le_mul_of_nonneg_right _ hg.le
  rw [le_div_iff₀ hd]
  exact_mod_cast lo

/-- The rounded significand is zero exactly when the value is at most half the smallest
subnormal number. -/
theorem roundSig_eq_zero_iff {m : Nat} {e : Int} (hm : m ≠ 0) :
    roundSig m e = 0 ↔ (m : ℚ) * 2 ^ e ≤ 2 ^ (-1075 : Int) := by
  have hd : 0 < 2 ^ (gridExp m e - e).toNat := Nat.pow_pos (by norm_num)
  have hdq : (0 : ℚ) < ((2 ^ (gridExp m e - e).toNat : Nat) : ℚ) := by positivity
  have hsplit : (2 : ℚ) ^ (-1074 : Int) = 2 * 2 ^ (-1075 : Int) := by
    rw [show (-1074 : Int) = 1 + -1075 by norm_num, zpow_add₀ (by norm_num : (2 : ℚ) ≠ 0),
      zpow_one]
  have hpos : (0 : ℚ) < 2 ^ (-1075 : Int) := by positivity
  by_cases h : -1074 ≤ e + bitLength m - 53
  · have hs := (roundSig_normal hm h).1
    have hv := value_ge_normal hm h
    have hge : (2 : ℚ) ^ (-1074 : Int) ≤ 2 ^ gridExp m e :=
      zpow_le_zpow_right₀ (by norm_num) (gridExp_ge m e)
    have h52 : (1 : ℚ) ≤ 2 ^ 52 := one_le_pow₀ (by norm_num)
    constructor
    · intro h0
      rw [h0] at hs
      exact absurd hs (by norm_num)
    · intro hle
      have : (2 : ℚ) ^ gridExp m e ≤ (m : ℚ) * 2 ^ e := by
        calc (2 : ℚ) ^ gridExp m e = 1 * 2 ^ gridExp m e := (one_mul _).symm
          _ ≤ 2 ^ 52 * 2 ^ gridExp m e := mul_le_mul_of_nonneg_right h52 (by positivity)
          _ ≤ _ := hv
      linarith
  · have hg := (grid_subnormal hm (lt_of_not_le h)).1
    unfold roundSig
    rw [roundDiv_eq_zero_iff hd, value_eq m e (gridExp m e), hg, hsplit]
    rw [hg] at hdq
    constructor
    · intro hx
      have hxq : (2 : ℚ) * ((m * 2 ^ (e - -1074).toNat : Nat) : ℚ)
          ≤ ((2 ^ (-1074 - e).toNat : Nat) : ℚ) := by exact_mod_cast hx
      have : ((m * 2 ^ (e - -1074).toNat : Nat) : ℚ) / ((2 ^ (-1074 - e).toNat : Nat) : ℚ)
          ≤ 1 / 2 := by
        rw [div_le_iff₀ hdq]; linarith
      nlinarith
    · intro hv
      have h1 : ((m * 2 ^ (e - -1074).toNat : Nat) : ℚ) / ((2 ^ (-1074 - e).toNat : Nat) : ℚ)
          ≤ 1 / 2 := by
        by_contra hc
        push_neg at hc
        nlinarith
      rw [div_le_iff₀ hdq] at h1
      have h2 : (2 : ℚ) * ((m * 2 ^ (e - -1074).toNat : Nat) : ℚ)
          ≤ ((2 ^ (-1074 - e).toNat : Nat) : ℚ) := by linarith
      exact_mod_cast h2

theorem pack_isZero (neg : Bool) (q : Nat) (e' : Int) :
    (pack neg q e').isZero = true ↔ q = 0 ∧ ¬ 971 < e' := by
  unfold pack
  by_cases hq : q = 2 ^ 53
  · rw [if_pos hq]
    have hq0 : q ≠ 0 := by rw [hq]; norm_num
    by_cases h : 971 < e' + 1
    · rw [if_pos h]; simp [isZero, hq0]
    · rw [if_neg h]; simp [isZero, hq0]
  · rw [if_neg hq]
    by_cases h : 971 < e'
    · rw [if_pos h]; simp [isZero, h]
    · rw [if_neg h]; simp [isZero, h]

/-- A product rounds to zero exactly when its exact value is at most `2^-1075`, half the smallest
subnormal number. -/
theorem round_isZero_iff (neg : Bool) (m : Nat) (e : Int) :
    (round neg m e).isZero = true ↔ (m : ℚ) * 2 ^ e ≤ 2 ^ (-1075 : Int) := by
  unfold round
  by_cases hm : m = 0
  · rw [if_pos hm, hm]
    simp only [isZero, decide_True, Nat.cast_zero, zero_mul, true_iff]
    positivity
  · rw [if_neg hm, pack_isZero, roundSig_eq_zero_iff hm]
    constructor
    · exact fun h => h.1
    · intro h
      refine ⟨h, ?_⟩
      by_cases hn : -1074 ≤ e + bitLength m - 53
      · have h0 := (roundSig_eq_zero_iff hm).mpr h
        have hs := (roundSig_normal hm hn).1
        rw [h0] at hs
        exact absurd hs (by norm_num)
      · rw [(roundSig_subnormal hm (lt_of_not_le hn)).1]
        norm_num

theorem mul_fin (s t : Bool) (m n : Nat) (e f : Int) :
    fin s m e * fin t n f = round (xor s t) (m * n) (e + f) := rfl

theorem nan_mul (b : Double) : nan * b = nan := by
  cases b <;> rfl

theorem abs_toRat_mul (s t : Bool) (m n : Nat) (e f : Int) :
    |(fin s m e).toRat * (fin t n f).toRat| = ((m * n : Nat) : ℚ) * 2 ^ (e + f) := by
  have h2 : (0 : ℚ) ≤ ((m * n : Nat) : ℚ) * 2 ^ (e + f) := by positivity
  have h3 : (2 : ℚ) ^ (e + f) = 2 ^ e * 2 ^ f := zpow_add₀ (by norm_num) e f
  unfold toRat
  cases s <;> cases t <;>
    simp only [Bool.false_eq_true, if_false, if_true] <;>
    [rw [← abs_of_nonneg h2]; rw [← abs_of_nonneg h2, ← abs_neg];
     rw [← abs_of_nonneg h2, ← abs_neg]; rw [← abs_of_nonneg h2]] <;>
    (congr 1; rw [h3]; push_cast; ring)

/-- A product of doubles is `±0` exactly when both factors are finite and their exact product
has a magnitude of at most `2^-1075`; this covers a zero factor and underflow. -/
theorem mul_isZero_iff (a b : Double) :
    (a * b).isZero = true ↔
      a.isFinite = true ∧ b.isFinite = true ∧ |a.toRat * b.toRat| ≤ 2 ^ (-1075 : Int) := by
  cases a with
  | nan => simp [nan_mul, isZero, isFinite]
  | inf s =>
    cases b with
    | nan => simp [show inf s * nan = nan from rfl, isZero, isFinite]
    | inf t => simp [show inf s * inf t = inf (xor s t) from rfl, isZero, isFinite]
    | fin t n f =>
      have : inf s * fin t n f = if n = 0 then nan else inf (xor s t) := rfl
      rw [this]
      split <;> simp [isZero, isFinite]
  | fin s m e =>
    cases b with
    | nan => simp [show fin s m e * nan = nan from rfl, isZero, isFinite]
    | inf t =>
      have : fin s m e * inf t = if m = 0 then nan else inf (xor s t) := rfl
      rw [this]
      split <;> simp [isZero, isFinite]
    | fin t n f =>
      rw [mul_fin, round_isZero_iff, abs_toRat_mul]
      simp [isFinite]

theorem toRat_of_isZero {a : Double} (h : a.isZero = true) : a.toRat = 0 := by
  cases a with
  | nan => rfl
  | inf s => rfl
  | fin s m e =>
    have hm : m = 0 := by simpa [isZero] using h
    simp [toRat, hm]

theorem isFinite_of_isZero {a : Double} (h : a.isZero = true) : a.isFinite = true := by
  cases a <;> simp_all [isZero, isFinite]

/-- A zero times a finite double is a zero. -/
theorem zero_mul_isZero {a b : Double} (ha : a.isZero = true) (hb : b.isFinite = true) :
    (a * b).isZero = true := by
  rw [mul_isZero_iff, toRat_of_isZero ha, zero_mul, abs_zero]
  exact ⟨isFinite_of_isZero ha, hb, by positivity⟩

/-- A finite double times a zero is a zero. -/
theorem mul_zero_isZero {a b : Double} (ha : a.isFinite = true) (hb : b.isZero = true) :
    (a * b).isZero = true := by
  rw [mul_isZero_iff, toRat_of_isZero hb, mul_zero, abs_zero]
  exact ⟨ha, isFinite_of_isZero hb, by positivity⟩

end Double

/-! ## The `ds_dirn` kernel on doubles -/

/-- The decimal literals and the `math.h` constants used in the examples are the doubles nearest
to the numbers they denote: each is within half a unit in the last place of its number. -/
theorem literals_nearest :
    |d0_1.toRat - 1 / 10| ≤ 2 ^ (-57 : Int) ∧ |d0_2.toRat - 2 / 10| ≤ 2 ^ (-56 : Int) ∧
    |d0_3.toRat - 3 / 10| ≤ 2 ^ (-55 : Int) ∧ |d0_4.toRat - 4 / 10| ≤ 2 ^ (-55 : Int) ∧
    |d0_6.toRat - 6 / 10| ≤ 2 ^ (-54 : Int) ∧ d2_0.toRat = 2 ∧ Double.one.toRat = 1 ∧
    |d1e200.toRat - 10 ^ 200| ≤ 2 ^ (611 : Int) ∧
    |d1em200.toRat - 1 / 10 ^ 200| ≤ 2 ^ (-718 : Int) ∧
    |d1_57079632.toRat - 157079632 / 10 ^ 8| ≤ 2 ^ (-53 : Int) ∧
    |(M_PI.toRat : ℝ) - Real.pi| ≤ 2 ^ (-52 : Int) ∧
    |(M_PI_2.toRat : ℝ) - Real.pi / 2| ≤ 2 ^ (-53 : Int) := by
  have hlo := Real.pi_gt_d20
  have hhi := Real.pi_lt_d20
  refine ⟨?_, ?_, ?_, ?_, ?_, ?_, ?_, ?_, ?_, ?_, ?_, ?_⟩
  · rw [abs_le]; norm_num [d0_1, Double.toRat]
  · rw [abs_le]; norm_num [d0_2, Double.toRat]
  · rw [abs_le]; norm_num [d0_3, Double.toRat]
  · rw [abs_le]; norm_num [d0_4, Double.toRat]
  · rw [abs_le]; norm_num [d0_6, Double.toRat]
  · norm_num [d2_0, Double.toRat]
  · norm_num [Double.one, Double.toRat]
  · rw [abs_le]; norm_num [d1e200, Double.toRat]
  · rw [abs_le]; norm_num [d1em200, Double.toRat]
  · rw [abs_le]; norm_num [d1_57079632, Double.toRat]
  · rw [abs_le]
    norm_num [M_PI, Double.toRat] at hlo hhi ⊢
    constructor <;> linarith
  · rw [abs_le]
    norm_num [M_PI_2, Double.toRat] at hlo hhi ⊢
    constructor <;> linarith

/-- The exact sines of `M_PI_2` and of `1.57079632` lie less than `2^-54` below `1`, that is
less than half the distance from `1.0` to the next smaller double: `1.0` is the double nearest to
them, the value a correctly rounded `sin` returns at these two arguments. -/
theorem sin_table_one_nearest :
    (1 - 2 ^ (-54 : Int) < Real.sin (M_PI_2.toRat : ℝ) ∧ Real.sin (M_PI_2.toRat : ℝ) ≤ 1) ∧
    (1 - 2 ^ (-54 : Int) < Real.sin (d1_57079632.toRat : ℝ) ∧
      Real.sin (d1_57079632.toRat : ℝ) ≤ 1) := by
  have hlo := Real.pi_gt_d20
  have hhi := Real.pi_lt_d20
  have key : ∀ x : ℝ, |Real.pi / 2 - x| ≤ 1 / 10 ^ 8 →
      1 - 2 ^ (-54 : Int) < Real.sin x ∧ Real.sin x ≤ 1 := by
    intro x hx
    refine ⟨?_, Real.sin_le_one x⟩
    rw [← Real.cos_pi_div_two_sub x]
    have h1 := @Real.one_sub_sq_div_two_le_cos (Real.pi / 2 - x)
    have h2 : (Real.pi / 2 - x) ^ 2 ≤ (1 / 10 ^ 8) ^ 2 := by
      rw [← sq_abs]
      exact pow_le_pow_left₀ (abs_nonneg _) hx 2
    have h3 : ((1 : ℝ) / 10 ^ 8) ^ 2 / 2 < 2 ^ (-54 : Int) := by norm_num
    linarith
  constructor
  · apply key
    rw [abs_le]
    norm_num [M_PI_2, Double.toRat] at hlo hhi ⊢
    constructor <;> linarith
  · apply key
    rw [abs_le]
    norm_num [d1_57079632, Double.toRat] at hlo hhi ⊢
    constructor <;> linarith

set_option maxRecDepth 8192
set_option exponentiation.threshold 2200

open Double

/-- C7 as stated fails on doubles. With `xx1 = 0` and `dxx2 = xx0 = 1e200` the product
`dxx2*xx0` overflows to `+∞` and `ds_dirn2` is NaN; with `xx0 = 0` and `xx1 = +∞` the sine is NaN
and so is `ds_dirn2`; and at `xx1 = M_PI`, the double nearest pi, `dxx2 = 0.3`, `xx0 = 2.0` give
`ds_dirn2 = 0x1.52dc7707ed4d5p-54` (about `7.35e-17`), which is not zero. -/
theorem ds_dirn2_degenerate_fails_on_doubles :
    (ds_dirn sin_table d0_1 d0_2 d1e200 d1e200 zero ⟨zero, zero, zero⟩).ds_dirn2 = nan ∧
    (ds_dirn sin_table d0_1 d0_2 d0_3 zero (inf false) ⟨zero, zero, zero⟩).ds_dirn2 = nan ∧
    (ds_dirn sin_table d0_1 d0_2 d0_3 d2_0 M_PI ⟨zero, zero, zero⟩).ds_dirn2
      = fin false 5961309120025813 (-106) ∧
    (fin false 5961309120025813 (-106)).isZero = false ∧ nan.isZero = false := by
  refine ⟨?_, ?_, ?_, ?_, ?_⟩ <;> decide

/-- C7, amended: degeneracy of `ds_dirn2` on doubles. With a library `sin` that returns a zero at
`xx1 = ±0`: if `xx1` is `±0` and the product `dxx2*xx0` is finite, or if `xx0` is `±0` and `dxx2`
and `sin(xx1)` are finite, then the block leaves a zero (`+0.0` or `-0.0`) in `ds_dirn2`, so that
`ds_dirn2 == 0` holds in C. -/
theorem ds_dirn2_degenerate (sin : Double → Double) (dxx0 dxx1 dxx2 xx0 xx1 : Double)
    (s : DsDirn Double)
    (hsin0 : xx1.isZero = true → (sin xx1).isZero = true)
    (h : (xx1.isZero = true ∧ (dxx2 * xx0).isFinite = true) ∨
      (xx0.isZero = true ∧ dxx2.isFinite = true ∧ (sin xx1).isFinite = true)) :
    (ds_dirn sin dxx0 dxx1 dxx2 xx0 xx1 s).ds_dirn2.isZero = true := by
  show (dxx2 * xx0 * sin xx1).isZero = true
  rcases h with ⟨h1, hp⟩ | ⟨h0, hd, hs⟩
  · exact mul_zero_isZero hp (hsin0 h1)
  · exact zero_mul_isZero (mul_zero_isZero hd h0) hs

/-- At the pole `xx1 = -0.0` of the point `xx0 = 2.0`, with `dxx2 = 0.3` and result variables that
held NaN, the azimuthal factor is a zero. -/
theorem ds_dirn2_degenerate_witness :
    (ds_dirn sin_table d0_1 d0_2 d0_3 d2_0 (fin true 0 (-1074)) ⟨nan, nan, nan⟩).ds_dirn2.isZero
      = true :=
  ds_dirn2_degenerate sin_table d0_1 d0_2 d0_3 d2_0 (fin true 0 (-1074)) ⟨nan, nan, nan⟩
    (by decide) (Or.inl ⟨by decide, by decide⟩)

/-- C8 as stated fails on doubles. With unit spacings, `xx0 = 0.0` and `xx1 = +∞` the sine is NaN
and the block leaves NaN, not `0.0`, in `ds_dirn2`; with `xx0 = 0.0` and an infinite spacing
`dxx1` it leaves NaN in `ds_dirn1`. -/
theorem ds_dirn_origin_fails_on_doubles :
    (ds_dirn sin_table one one one zero (inf false) ⟨zero, zero, zero⟩).ds_dirn2 = nan ∧
    (ds_dirn sin_table one (inf false) one zero one ⟨zero, zero, zero⟩).ds_dirn1 = nan ∧
    nan.isZero = false := by
  refine ⟨?_, ?_, ?_⟩ <;> decide

/-- C8, amended: origin degeneracy on doubles. If `xx0` is `±0`, the spacings `dxx1`, `dxx2` are
finite and `sin(xx1)` is finite (as it is for every finite `xx1`), the block leaves `dxx0` in
`ds_dirn0` and a zero in `ds_dirn1` and in `ds_dirn2`. In particular (Scenario 2) for
`dxx0 = dxx1 = dxx2 = 1.0` and `xx0 = 0.0` it leaves `1.0`, `+0.0` and a zero. -/
theorem ds_dirn_origin (sin : Double → Double) (dxx0 dxx1 dxx2 xx0 xx1 : Double)
    (s : DsDirn Double) (hx0 : xx0.isZero = true) (hd1 : dxx1.isFinite = true)
    (hd2 : dxx2.isFinite = true) (hs : (sin xx1).isFinite = true) :
    ((ds_dirn sin dxx0 dxx1 dxx2 xx0 xx1 s).ds_dirn0 = dxx0 ∧
      (ds_dirn sin dxx0 dxx1 dxx2 xx0 xx1 s).ds_dirn1.isZero = true ∧
      (ds_dirn sin dxx0 dxx1 dxx2 xx0 xx1 s).ds_dirn2.isZero = true) ∧
    ((ds_dirn sin one one one zero xx1 s).ds_dirn0 = one ∧
      (ds_dirn sin one one one zero xx1 s).ds_dirn1 = zero ∧
      (ds_dirn sin one one one zero xx1 s).ds_dirn2.isZero = true) := by
  refine ⟨⟨rfl, ?_, ?_⟩, rfl, ?_, ?_⟩
  · exact mul_zero_isZero hd1 hx0
  · exact zero_mul_isZero (mul_zero_isZero hd2 hx0) hs
  · show one * zero = zero
    decide
  · show (one * zero * sin xx1).isZero = true
    exact zero_mul_isZero (by decide) hs

/-- Scenario 2 at `xx1 = M_PI_2`, from result variables that held NaN. -/
theorem ds_dirn_origin_witness :
    ((ds_dirn sin_table one one one zero M_PI_2 ⟨nan, nan, nan⟩).ds_dirn0 = one ∧
      (ds_dirn sin_table one one one zero M_PI_2 ⟨nan, nan, nan⟩).ds_dirn1.isZero = true ∧
      (ds_dirn sin_table one one one zero M_PI_2 ⟨nan, nan, nan⟩).ds_dirn2.isZero = true) ∧
    ((ds_dirn sin_table one one one zero M_PI_2 ⟨nan, nan, nan⟩).ds_dirn0 = one ∧
      (ds_dirn sin_table one one one zero M_PI_2 ⟨nan, nan, nan⟩).ds_dirn1 = zero ∧
      (ds_dirn sin_table one one one zero M_PI_2 ⟨nan, nan, nan⟩).ds_dirn2.isZero = true) :=
  ds_dirn_origin sin_table one one one zero M_PI_2 ⟨nan, nan, nan⟩
    (by decide) (by decide) (by decide) (by decide)

/-- C9: Scenario 1 on doubles. For the doubles of `dxx0 = 0.1`, `dxx1 = 0.2`, `dxx2 = 0.3`,
`xx0 = 2.0` and `xx1 = M_PI_2` (the double nearest pi/2), with a library `sin` that returns `1.0`
at `M_PI_2`, the block leaves exactly the doubles of `0.1`, `0.4` and `0.6` in `ds_dirn0`,
`ds_dirn1` and `ds_dirn2`, whatever the result variables held before: the products `0.2·2.0`,
`0.3·2.0` and `0.6·1.0` are exact. -/
theorem ds_dirn_scenario1 (sin : Double → Double) (s : DsDirn Double)
    (hsin : sin M_PI_2 = one) :
    (ds_dirn sin d0_1 d0_2 d0_3 d2_0 M_PI_2 s).ds_dirn0 = d0_1 ∧
    (ds_dirn sin d0_1 d0_2 d0_3 d2_0 M_PI_2 s).ds_dirn1 = d0_4 ∧
    (ds_dirn sin d0_1 d0_2 d0_3 d2_0 M_PI_2 s).ds_dirn2 = d0_6 := by
  refine ⟨rfl, ?_, ?_⟩
  · show d0_2 * d2_0 = d0_4
    decide
  · show d0_3 * d2_0 * sin M_PI_2 = d0_6
    rw [hsin]
    decide

/-- Scenario 1 with the tabulated library value `sin(M_PI_2) = 1.0`, starting from result
variables that hold NaN. -/
theorem ds_dirn_scenario1_witness :
    (ds_dirn sin_table d0_1 d0_2 d0_3 d2_0 M_PI_2 ⟨nan, nan, nan⟩).ds_dirn0 = d0_1 ∧
    (ds_dirn sin_table d0_1 d0_2 d0_3 d2_0 M_PI_2 ⟨nan, nan, nan⟩).ds_dirn1 = d0_4 ∧
    (ds_dirn sin_table d0_1 d0_2 d0_3 d2_0 M_PI_2 ⟨nan, nan, nan⟩).ds_dirn2 = d0_6 :=
  ds_dirn_scenario1 sin_table ⟨nan, nan, nan⟩ (by decide)

/-- C12 as stated fails on doubles. For `dxx2 = xx0 = 1e-200` and `xx1 = M_PI_2`, a point of the
documented domain that is neither the origin nor a pole, the product `dxx2*xx0` underflows and the
block leaves `+0.0` in `ds_dirn2`. -/
theorem ds_dirn2_eq_zero_iff_fails_on_doubles :
    (ds_dirn sin_table d0_1 d0_2 d1em200 d1em200 M_PI_2 ⟨one, one, one⟩).ds_dirn2 = zero ∧
    (lt zero d1em200 = true ∧ le zero M_PI_2 = true ∧ (M_PI_2.toRat : ℝ) ≤ Real.pi) ∧
    d1em200.isZero = false ∧ M_PI_2.isZero = false ∧ (M_PI_2.toRat : ℝ) ≠ Real.pi := by
  have hpi := Real.pi_gt_three
  have hlt : (M_PI_2.toRat : ℝ) < 2 := by norm_num [M_PI_2, Double.toRat]
  refine ⟨by decide, ⟨by decide, by decide, by linarith⟩, by decide, by decide, ?_⟩
  exact ne_of_lt (by linarith)

/-- C12, amended: zeros of `ds_dirn2` on doubles. For finite `dxx2` and `xx0` and a finite
`sin(xx1)`, the block leaves a zero in `ds_dirn2` if and only if the double `dxx2*xx0` is finite
and its exact product with `sin(xx1)` has a magnitude of at most `2^-1075`; and `dxx2*xx0` is a
zero if and only if the exact product of `dxx2` and `xx0` has a magnitude of at most `2^-1075`.
So `ds_dirn2` is a zero at the origin `xx0 = ±0` and wherever `sin(xx1)` is a zero and `dxx2*xx0`
is finite, and otherwise only by underflow. -/
theorem ds_dirn2_eq_zero_iff (sin : Double → Double) (dxx0 dxx1 dxx2 xx0 xx1 : Double)
    (s : DsDirn Double) (hd : dxx2.isFinite = true) (hx : xx0.isFinite = true)
    (hs : (sin xx1).isFinite = true) :
    ((ds_dirn sin dxx0 dxx1 dxx2 xx0 xx1 s).ds_dirn2.isZero = true ↔
      ((dxx2 * xx0).isFinite = true ∧
        |(dxx2 * xx0).toRat * (sin xx1).toRat| ≤ 2 ^ (-1075 : Int))) ∧
    ((dxx2 * xx0).isZero = true ↔ |dxx2.toRat * xx0.toRat| ≤ 2 ^ (-1075 : Int)) ∧
    (xx0.isZero = true → (ds_dirn sin dxx0 dxx1 dxx2 xx0 xx1 s).ds_dirn2.isZero = true) ∧
    ((sin xx1).isZero = true → (dxx2 * xx0).isFinite = true →
      (ds_dirn sin dxx0 dxx1 dxx2 xx0 xx1 s).ds_dirn2.isZero = true) := by
  refine ⟨?_, ?_, ?_, ?_⟩
  · show (dxx2 * xx0 * sin xx1).isZero = true ↔ _
    rw [mul_isZero_iff]
    constructor
    · exact fun h => ⟨h.1, h.2.2⟩
    · exact fun h => ⟨h.1, hs, h.2⟩
  · rw [mul_isZero_iff]
    constructor
    · exact fun h => h.2.2
    · exact fun h => ⟨hd, hx, h⟩
  · intro h0
    exact zero_mul_isZero (mul_zero_isZero hd h0) hs
  · intro hs0 hp
    exact mul_zero_isZero hp hs0

/-- The equivalences at the origin `xx0 = 0.0`, with `dxx2 = 0.3` and `xx1 = M_PI_2`, from result
variables that held NaN: `ds_dirn2` is a zero there. -/
theorem ds_dirn2_eq_zero_iff_witness :
    ((ds_dirn sin_table d0_1 d0_2 d0_3 zero M_PI_2 ⟨nan, nan, nan⟩).ds_dirn2.isZero = true ↔
      ((d0_3 * zero).isFinite = true ∧
        |(d0_3 * zero).toRat * (sin_table M_PI_2).toRat| ≤ 2 ^ (-1075 : Int))) ∧
    ((d0_3 * zero).isZero = true ↔ |d0_3.toRat * zero.toRat| ≤ 2 ^ (-1075 : Int)) ∧
    (zero.isZero = true →
      (ds_dirn sin_table d0_1 d0_2 d0_3 zero M_PI_2 ⟨nan, nan, nan⟩).ds_dirn2.isZero = true) ∧
    ((sin_table M_PI_2).isZero = true → (d0_3 * zero).isFinite = true →
      (ds_dirn sin_table d0_1 d0_2 d0_3 zero M_PI_2 ⟨nan, nan, nan⟩).ds_dirn2.isZero = true) :=
  ds_dirn2_eq_zero_iff sin_table d0_1 d0_2 d0_3 zero M_PI_2 ⟨nan, nan, nan⟩
    (by decide) (by decide) (by decide)

end SFCollapse
